import Mathlib

/-!
Verification development for the CogniFuse multi-channel deformer encoder
(src/models/MultiChannelDeformer.py).

The development contains two shallow embeddings of the encoder:

* a shape-level semantics over natural numbers, modelling exactly which
  tensor shapes each layer accepts and produces (an operation that the
  underlying tensor library would reject returns none);
* a value-level semantics over the real numbers, modelling the numeric
  content of the layers in evaluation mode (dropout is the identity and
  batch normalisation uses its stored running statistics; every operation
  acts independently on each batch element, so value-level tensors carry
  no batch axis).

Python floating point subtleties that matter are noted at the relevant
definitions: multiplying a nonnegative integer below 2^53 by 0.5 is exact
in IEEE double precision and int() truncates toward zero, so the per-level
time halving int(d * 0.5) is natural-number division by two, and
int(dim * 0.5 ** depth) is natural-number division by 2 ^ depth.
-/

namespace CogniFuse

/-! ## Time-length halving bookkeeping (Transformer.get_modality_output_sizes) -/

/-- One per-level halving of a time length, from the construction loop
dims = [int(d * 0.5) for d in dims]; exact by the IEEE argument above. -/
def halveStep (d : ℕ) : ℕ := d / 2

/-- Time length after depth successive per-level halvings, as performed by
the construction loop and matched by the stride-2 max pooling in forward. -/
def halveIter (depth T : ℕ) : ℕ := halveStep^[depth] T

/-- Configured compressor input size for one modality, from
Transformer.get_modality_output_sizes:
int(dim * (0.5 ** depth)) * in_chan + in_chan * depth. -/
def modalityOutputSize (dim depth in_chan : ℕ) : ℕ :=
  (dim / 2 ^ depth) * in_chan + in_chan * depth

/-- Configured compressor input sizes for all modalities, from
Transformer.get_modality_output_sizes. -/
def get_modality_output_sizes (dims : List ℕ) (depth : ℕ) (in_chans : List ℕ) : List ℕ :=
  (dims.zip in_chans).map fun p => modalityOutputSize p.1 depth p.2

theorem halveIter_eq_div_pow (depth T : ℕ) : halveIter depth T = T / 2 ^ depth := by
  induction depth generalizing T with
  | zero => simp [halveIter]
  | succ n ih =>
    rw [halveIter, Function.iterate_succ_apply]
    show halveIter n (halveStep T) = _
    rw [ih, halveStep, Nat.div_div_eq_div_mul, pow_succ']

/-! ## Per-filter L2 weight renormalisation (Conv2dWithConstraint.forward) -/

/-- A vector of real entries. -/
abbrev Vec := List ℝ

/-- A two-dimensional real tensor, outer axis first. -/
abbrev Mat := List Vec

/-- A three-dimensional real tensor. -/
abbrev T3 := List Mat

/-- A four-dimensional real tensor; convolution weights are stored as
(out_channels, in_channels, kernel_h, kernel_w). -/
abbrev T4 := List T3

noncomputable def vecSqSum (v : Vec) : ℝ := (v.map fun a => a ^ 2).sum

noncomputable def matSqSum (m : Mat) : ℝ := (m.map vecSqSum).sum

noncomputable def t3SqSum (t : T3) : ℝ := (t.map matSqSum).sum

/-- L2 norm of one output filter (one slice of the weight along dim 0),
as used by torch.renorm with p=2, dim=0. -/
noncomputable def filterNorm (t : T3) : ℝ := Real.sqrt (t3SqSum t)

/-- Rescaling factor used by torch.renorm: slices whose norm exceeds
maxnorm are scaled by maxnorm / (norm + 1e-7), others are kept. -/
noncomputable def renormFactor (maxnorm norm : ℝ) : ℝ :=
  if maxnorm < norm then maxnorm / (norm + 1e-7) else 1

noncomputable def t3Scale (c : ℝ) (t : T3) : T3 :=
  t.map fun m => m.map fun v => v.map fun a => c * a

/-- torch.renorm(w, p=2, dim=0, maxnorm): every output filter is rescaled
so that its L2 norm does not exceed maxnorm. This is the operation
Conv2dWithConstraint.forward applies destructively to self.weight.data
before every convolution, with maxnorm = self.max_norm = 2. -/
noncomputable def renormW (maxnorm : ℝ) (w : T4) : T4 :=
  w.map fun filt => t3Scale (renormFactor maxnorm (filterNorm filt)) filt

theorem vecSqSum_nonneg (v : Vec) : 0 ≤ vecSqSum v := by
  refine List.sum_nonneg ?_
  intro a ha
  obtain ⟨b, _, rfl⟩ := List.mem_map.1 ha
  positivity

theorem matSqSum_nonneg (m : Mat) : 0 ≤ matSqSum m := by
  refine List.sum_nonneg ?_
  intro a ha
  obtain ⟨b, _, rfl⟩ := List.mem_map.1 ha
  exact vecSqSum_nonneg b

theorem t3SqSum_nonneg (t : T3) : 0 ≤ t3SqSum t := by
  refine List.sum_nonneg ?_
  intro a ha
  obtain ⟨b, _, rfl⟩ := List.mem_map.1 ha
  exact matSqSum_nonneg b

theorem filterNorm_nonneg (t : T3) : 0 ≤ filterNorm t := Real.sqrt_nonneg _

theorem vecSqSum_smul (c : ℝ) (v : Vec) :
    vecSqSum (v.map fun a => c * a) = c ^ 2 * vecSqSum v := by
  unfold vecSqSum
  rw [List.map_map, ← List.sum_map_mul_left]
  refine congrArg List.sum (List.map_congr_left ?_)
  intro a _
  simp only [Function.comp_apply]
  ring

theorem matSqSum_smul (c : ℝ) (m : Mat) :
    matSqSum (m.map fun v => v.map fun a => c * a) = c ^ 2 * matSqSum m := by
  unfold matSqSum
  rw [List.map_map, ← List.sum_map_mul_left]
  refine congrArg List.sum (List.map_congr_left ?_)
  intro v _
  simp only [Function.comp_apply, vecSqSum_smul]

theorem t3SqSum_scale (c : ℝ) (t : T3) : t3SqSum (t3Scale c t) = c ^ 2 * t3SqSum t := by
  unfold t3SqSum t3Scale
  rw [List.map_map, ← List.sum_map_mul_left]
  refine congrArg List.sum (List.map_congr_left ?_)
  intro m _
  simp only [Function.comp_apply, matSqSum_smul]

theorem filterNorm_scale (c : ℝ) (t : T3) (hc : 0 ≤ c) :
    filterNorm (t3Scale c t) = c * filterNorm t := by
  unfold filterNorm
  rw [t3SqSum_scale, Real.sqrt_mul (by positivity), Real.sqrt_sq hc]

theorem t3Scale_one (t : T3) : t3Scale 1 t = t := by
  unfold t3Scale
  simp

/-- Renormalising one filter once leaves its norm at most maxnorm
(strictly below, when it was scaled). -/
theorem renormFilter_compliant (mn : ℝ) (hmn : 0 ≤ mn) (t : T3) :
    filterNorm (t3Scale (renormFactor mn (filterNorm t)) t) ≤ mn := by
  by_cases h : mn < filterNorm t
  · have hnorm : 0 < filterNorm t := lt_of_le_of_lt hmn h
    have hden : (0 : ℝ) < filterNorm t + 1e-7 := by positivity
    have hfac : 0 ≤ mn / (filterNorm t + 1e-7) := by positivity
    rw [renormFactor, if_pos h, filterNorm_scale _ _ hfac]
    rw [div_mul_eq_mul_div, div_le_iff₀ hden]
    nlinarith [filterNorm_nonneg t]
  · rw [renormFactor, if_neg h, t3Scale_one]
    exact le_of_not_lt h

/-- Renormalisation fixes any filter whose norm is already within the bound. -/
theorem renormFilter_noop (mn : ℝ) (t : T3) (h : filterNorm t ≤ mn) :
    t3Scale (renormFactor mn (filterNorm t)) t = t := by
  rw [renormFactor, if_neg (not_lt.2 h), t3Scale_one]

theorem renormW_idem (mn : ℝ) (hmn : 0 ≤ mn) (w : T4) :
    renormW mn (renormW mn w) = renormW mn w := by
  unfold renormW
  rw [List.map_map]
  refine List.map_congr_left ?_
  intro filt _
  exact renormFilter_noop mn _ (renormFilter_compliant mn hmn filt)

theorem renormW_noop (mn : ℝ) (w : T4) (h : ∀ filt ∈ w, filterNorm filt ≤ mn) :
    renormW mn w = w := by
  unfold renormW
  conv_rhs => rw [← List.map_id w]
  refine List.map_congr_left ?_
  intro filt hf
  exact renormFilter_noop mn filt (h filt hf)

/-- C4: the per-filter L2 weight renormalisation applied by the constrained
convolution before each forward pass is idempotent: applying it twice yields
the same weights as applying it once, and applying it to an already-compliant
weight (every output filter norm at most max_norm) leaves the weight
unchanged. Stated for any nonnegative maxnorm; the source uses max_norm = 2. -/
theorem C4_renorm_idempotent (mn : ℝ) (hmn : 0 ≤ mn) (w : T4) :
    renormW mn (renormW mn w) = renormW mn w ∧
      ((∀ filt ∈ w, filterNorm filt ≤ mn) → renormW mn w = w) :=
  ⟨renormW_idem mn hmn w, renormW_noop mn w⟩

/-- Witness for C4 at maxnorm = 2 and the all-zero single-filter weight,
which is compliant. -/
theorem C4_renorm_idempotent_witness :
    (0 : ℝ) ≤ 2 ∧ (∀ filt ∈ ([[[[0]]]] : T4), filterNorm filt ≤ 2) ∧
      (renormW 2 (renormW 2 [[[[0]]]]) = renormW 2 [[[[0]]]] ∧
        renormW 2 [[[[0]]]] = [[[[0]]]]) := by
  have hmn : (0 : ℝ) ≤ 2 := zero_le_two
  have hcomp : ∀ filt ∈ ([[[[0]]]] : T4), filterNorm filt ≤ 2 := by
    intro filt hf
    simp only [List.mem_singleton] at hf
    subst hf
    simp [filterNorm, t3SqSum, matSqSum, vecSqSum, Real.sqrt_zero]
  have h := C4_renorm_idempotent 2 hmn ([[[[0]]]] : T4)
  exact ⟨hmn, hcomp, h.1, h.2 hcomp⟩

/-- C9: applying the per-level halving int(d * 0.5) depth times equals the
closed form int(T * 0.5 ** depth) used by get_modality_output_sizes, so the
configured compressor input size K * int(T * 0.5 ** depth) + K * depth equals
K times the final per-level token dimension plus K entries per level, the
length of the concatenation of the flattened final token sequence with the
depth dense-feature vectors. -/
theorem C9_halving_closed_form (T depth K : ℕ) :
    halveIter depth T = T / 2 ^ depth ∧
      modalityOutputSize T depth K = K * halveIter depth T + K * depth := by
  refine ⟨halveIter_eq_div_pow depth T, ?_⟩
  rw [modalityOutputSize, halveIter_eq_div_pow, Nat.mul_comm]

/-! ## Value-level attention (Attention.forward)

Value-level tensors carry no batch axis: every operation of the encoder acts
independently on each batch element, so one batch element is modelled.
Modules are modelled in evaluation mode: dropout is the identity. -/

noncomputable def dot (v w : Vec) : ℝ := ((v.zip w).map fun p => p.1 * p.2).sum

/-- nn.Linear with bias: y = W x + b, weight rows indexed by output feature. -/
noncomputable def linearMap (W : Mat) (b : Vec) (x : Vec) : Vec :=
  (W.zip b).map fun p => dot p.1 x + p.2

/-- nn.Linear with bias=False. -/
noncomputable def linearNB (W : Mat) (x : Vec) : Vec := W.map fun r => dot r x

/-- Per-head dot product of query and key rows: after the rearrange
b n (h d) -> b h n d, feature f belongs to head f / dh, and head h covers
features h * dh + d for d < dh. -/
noncomputable def headDot (dh h : ℕ) (q k : Vec) : ℝ :=
  ∑ d ∈ Finset.range dh, q.getD (h * dh + d) 0 * k.getD (h * dh + d) 0

/-- Attention scale factor dim_head ** -0.5. -/
noncomputable def attnScale (dh : ℕ) : ℝ := (dh : ℝ) ^ (-(0.5) : ℝ)

/-- Softmax denominator over the key token axis for head h
(attend = nn.Softmax(dim=-1) on the scaled dots). -/
noncomputable def headExpSum (dh h : ℕ) (q : Vec) (ks : Mat) : ℝ :=
  (ks.map fun k => Real.exp (headDot dh h q k * attnScale dh)).sum

/-- One output feature f of scaled dot-product attention for one query row:
the softmax over the key token axis for head f / dh, contracted with the
value rows at feature f (matmul(attn, v) then rearrange b h n d -> b n (h d)). -/
noncomputable def attnEntry (dh : ℕ) (q : Vec) (ks vs : Mat) (f : ℕ) : ℝ :=
  ((ks.zip vs).map fun kv =>
      Real.exp (headDot dh (f / dh) q kv.1 * attnScale dh) * kv.2.getD f 0).sum /
    headExpSum dh (f / dh) q ks

/-- Multi-head scaled dot-product attention core applied to one query row,
producing the inner-dimension (heads * dh) output row. -/
noncomputable def attnCore (heads dh : ℕ) (q : Vec) (ks vs : Mat) : Vec :=
  (List.range (heads * dh)).map (attnEntry dh q ks vs)

/-- Attention.forward with create_heads=False and an out_dim: q, k, v are
used as given, and to_out is Linear(inner_dim, out_dim) followed by dropout
(the identity in evaluation mode). -/
noncomputable def attnNoHeads (heads dh : ℕ) (Wo : Mat) (bo : Vec) (q k v : Mat) : Mat :=
  q.map fun qr => linearMap Wo bo (attnCore heads dh qr k v)

/-! ## Value-level FeedForward -/

/-- Gauss error function, the exact form used by nn.GELU() with its default
approximate='none'. -/
noncomputable def erf (x : ℝ) : ℝ :=
  2 / Real.sqrt Real.pi * ∫ t in (0 : ℝ)..x, Real.exp (-(t ^ 2))

/-- nn.GELU(): x * Phi(x) with the Gaussian cumulative distribution. -/
noncomputable def gelu (x : ℝ) : ℝ := x * (1 + erf (x / Real.sqrt 2)) / 2

/-- nn.LayerNorm over the last axis with learned affine parameters and the
default eps = 1e-5; the variance is the biased one. -/
noncomputable def layerNorm (g be : Vec) (x : Vec) : Vec :=
  let n : ℝ := x.length
  let mu := x.sum / n
  let v := (x.map fun a => (a - mu) ^ 2).sum / n
  (List.range x.length).map fun i =>
    (x.getD i 0 - mu) / Real.sqrt (v + 1e-5) * g.getD i 0 + be.getD i 0

/-- Parameters of the FeedForward module: LayerNorm affine pair, then
Linear(dim, hidden), GELU, dropout, Linear(hidden, out), dropout. -/
structure FFP where
  g : Vec
  be : Vec
  W1 : Mat
  b1 : Vec
  W2 : Mat
  b2 : Vec

/-- FeedForward.forward on one token row (evaluation mode: dropout = id). -/
noncomputable def ffwdApply (p : FFP) (x : Vec) : Vec :=
  linearMap p.W2 p.b2 ((linearMap p.W1 p.b1 (layerNorm p.g p.be x)).map gelu)

/-! ## Cross-channel transformer encoder layer -/

/-- The per-modality tuple (x, x_q, x_k, x_v) stored into channels_output
by the first inner loop of Transformer.forward. -/
structure ChanTup where
  x : Mat
  xq : Mat
  xk : Mat
  xv : Mat

/-- Parameters of CrossChannelTransformerEncoderLayer: the to_out linear of
its no-heads Attention (Linear(inner_dim, out_dim)), and the ffwd module. -/
structure CrossP where
  Wo : Mat
  bo : Vec
  ff : FFP

/-- Elementwise tensor addition on matching shapes. -/
noncomputable def matAdd (a b : Mat) : Mat := List.zipWith (List.zipWith (· + ·)) a b

/-- CrossChannelTransformerEncoderLayer.forward: keys and values of the other
modalities are concatenated along the token axis (dim=-2), the query attends
over the aggregate pool, the result is added to the pre-projection x, and the
ffwd module is applied to that sum. Note that no residual is added around
ffwd: the layer returns ffwd(x + sa(x_q, k_agg, v_agg)). -/
noncomputable def crossForward (heads dh : ℕ) (p : CrossP) (x xq : Mat)
    (others : List ChanTup) : Mat :=
  let kagg := (others.map ChanTup.xk).flatten
  let vagg := (others.map ChanTup.xv).flatten
  let x1 := matAdd x (attnNoHeads heads dh p.Wo p.bo xq kagg vagg)
  x1.map (ffwdApply p.ff)

/-- Modelled from the spec sentence behind C1: the claimed output
x' + FFN(x') with x' = x + Attention(q, K_agg, V_agg), i.e. a residual
connection around the feed-forward refinement. -/
noncomputable def crossForwardClaimed (heads dh : ℕ) (p : CrossP) (x xq : Mat)
    (others : List ChanTup) : Mat :=
  let kagg := (others.map ChanTup.xk).flatten
  let vagg := (others.map ChanTup.xv).flatten
  let x1 := matAdd x (attnNoHeads heads dh p.Wo p.bo xq kagg vagg)
  matAdd x1 (x1.map (ffwdApply p.ff))

/-! ## Permutation invariance of the aggregate attention pool -/

theorem flatten_perm {α : Type _} {l₁ l₂ : List (List α)} (h : l₁.Perm l₂) :
    l₁.flatten.Perm l₂.flatten := by
  induction h with
  | nil => exact List.Perm.refl _
  | cons a _ ih => simpa using ih.append_left a
  | swap a b l =>
    simp only [List.flatten_cons, ← List.append_assoc]
    exact (List.perm_append_comm).append_right _
  | trans _ _ ih₁ ih₂ => exact ih₁.trans ih₂

theorem zip_flatten_eq {α β : Type _} :
    ∀ l : List (List α × List β), (∀ p ∈ l, p.1.length = p.2.length) →
      ((l.map Prod.fst).flatten).zip ((l.map Prod.snd).flatten) =
        (l.map fun p => p.1.zip p.2).flatten := by
  intro l
  induction l with
  | nil => simp
  | cons p rest ih =>
    intro h
    simp only [List.map_cons, List.flatten_cons]
    rw [List.zip_append (h p (List.mem_cons_self p rest)),
      ih fun q hq => h q (List.mem_cons_of_mem _ hq)]

/-- The zipped aggregate key/value pool of a permuted list of modality tuples
is a permutation of the original pool. -/
theorem aggPool_perm {o₁ o₂ : List ChanTup} (hperm : o₁.Perm o₂)
    (hlen : ∀ t ∈ o₁, t.xk.length = t.xv.length) :
    ((o₁.map ChanTup.xk).flatten.zip ((o₁.map ChanTup.xv).flatten)).Perm
      ((o₂.map ChanTup.xk).flatten.zip ((o₂.map ChanTup.xv).flatten)) := by
  have hlen₂ : ∀ t ∈ o₂, t.xk.length = t.xv.length := fun t ht =>
    hlen t (hperm.mem_iff.2 ht)
  have e₁ := zip_flatten_eq (o₁.map fun t => (t.xk, t.xv)) (by
    intro p hp
    obtain ⟨t, ht, rfl⟩ := List.mem_map.1 hp
    exact hlen t ht)
  have e₂ := zip_flatten_eq (o₂.map fun t => (t.xk, t.xv)) (by
    intro p hp
    obtain ⟨t, ht, rfl⟩ := List.mem_map.1 hp
    exact hlen₂ t ht)
  simp only [List.map_map] at e₁ e₂
  have hfst : ((fun p : List Vec × List Vec => p.1) ∘ fun t : ChanTup => (t.xk, t.xv)) =
      ChanTup.xk := rfl
  have hsnd : ((fun p : List Vec × List Vec => p.2) ∘ fun t : ChanTup => (t.xk, t.xv)) =
      ChanTup.xv := rfl
  rw [hfst, hsnd] at e₁ e₂
  rw [e₁, e₂]
  exact flatten_perm (hperm.map _)

/-- The aggregate key list of a permuted modality list is a permutation of the
original aggregate key list. -/
theorem aggKeys_perm {o₁ o₂ : List ChanTup} (hperm : o₁.Perm o₂) :
    ((o₁.map ChanTup.xk).flatten).Perm ((o₂.map ChanTup.xk).flatten) :=
  flatten_perm (hperm.map _)

theorem attnEntry_perm_invariant {o₁ o₂ : List ChanTup} (hperm : o₁.Perm o₂)
    (hlen : ∀ t ∈ o₁, t.xk.length = t.xv.length) (dh : ℕ) (q : Vec) (f : ℕ) :
    attnEntry dh q ((o₁.map ChanTup.xk).flatten) ((o₁.map ChanTup.xv).flatten) f =
      attnEntry dh q ((o₂.map ChanTup.xk).flatten) ((o₂.map ChanTup.xv).flatten) f := by
  unfold attnEntry headExpSum
  rw [((aggPool_perm hperm hlen).map _).sum_eq, ((aggKeys_perm hperm).map _).sum_eq]

/-- C5: the output of the cross-modal fusion layer for a modality is unchanged
when the other modalities are reordered in the aggregate key/value
concatenation, because scaled dot-product attention is invariant under a joint
permutation of its key/value token axis (stated in exact real arithmetic; the
hypothesis that each tuple carries equally many key and value tokens always
holds in the encoder, where both come from the same fused token sequence). -/
theorem C5_cross_perm_invariant (heads dh : ℕ) (p : CrossP) (x xq : Mat)
    (o₁ o₂ : List ChanTup) (hperm : o₁.Perm o₂)
    (hlen : ∀ t ∈ o₁, t.xk.length = t.xv.length) :
    crossForward heads dh p x xq o₁ = crossForward heads dh p x xq o₂ := by
  unfold crossForward attnNoHeads attnCore
  have hq : ∀ qr : Vec,
      (List.range (heads * dh)).map
          (attnEntry dh qr ((o₁.map ChanTup.xk).flatten) ((o₁.map ChanTup.xv).flatten)) =
        (List.range (heads * dh)).map
          (attnEntry dh qr ((o₂.map ChanTup.xk).flatten) ((o₂.map ChanTup.xv).flatten)) := by
    intro qr
    exact List.map_congr_left fun f _ => attnEntry_perm_invariant hperm hlen dh qr f
  simp only [hq]

/-- Witness for C5: a two-modality pool and its transposition. -/
theorem C5_cross_perm_invariant_witness :
    (([⟨[[1]], [[1]], [[1]], [[2]]⟩, ⟨[[3]], [[3]], [[3]], [[4]]⟩] : List ChanTup).Perm
        [⟨[[3]], [[3]], [[3]], [[4]]⟩, ⟨[[1]], [[1]], [[1]], [[2]]⟩]) ∧
      crossForward 1 1 ⟨[[1]], [0], ⟨[1], [0], [[1]], [0], [[1]], [0]⟩⟩ [[1]] [[1]]
          [⟨[[1]], [[1]], [[1]], [[2]]⟩, ⟨[[3]], [[3]], [[3]], [[4]]⟩] =
        crossForward 1 1 ⟨[[1]], [0], ⟨[1], [0], [[1]], [0], [[1]], [0]⟩⟩ [[1]] [[1]]
          [⟨[[3]], [[3]], [[3]], [[4]]⟩, ⟨[[1]], [[1]], [[1]], [[2]]⟩] := by
  have hperm : (([⟨[[1]], [[1]], [[1]], [[2]]⟩, ⟨[[3]], [[3]], [[3]], [[4]]⟩] : List ChanTup).Perm
      [⟨[[3]], [[3]], [[3]], [[4]]⟩, ⟨[[1]], [[1]], [[1]], [[2]]⟩]) :=
    List.Perm.swap _ _ _
  have hlen : ∀ t ∈ ([⟨[[1]], [[1]], [[1]], [[2]]⟩, ⟨[[3]], [[3]], [[3]], [[4]]⟩] : List ChanTup),
      t.xk.length = t.xv.length := by
    intro t ht
    simp only [List.mem_cons, List.not_mem_nil, or_false] at ht
    rcases ht with rfl | rfl <;> rfl
  exact ⟨hperm, C5_cross_perm_invariant 1 1 _ _ _ _ _ hperm hlen⟩

/-! ## Concrete instance refuting the claimed residual around ffwd -/

/-- Concrete feed-forward parameters with zero linear weights. -/
noncomputable def cexFF : FFP := ⟨[1], [0], [[0]], [0], [[0]], [0]⟩

/-- Concrete cross-layer parameters with a zero to_out projection. -/
noncomputable def cexP : CrossP := ⟨[[0]], [0], cexFF⟩

/-! ## Value-level Transformer (per depth level, per modality) -/

/-- Attention.forward with create_heads=True: to_q, to_k, to_v are
Linear(q_dim, inner_dim, bias=False); to_out is Linear(inner_dim, q_dim) with
dropout when project_out (that is, unless heads = 1 and dim_head = q_dim),
and the identity otherwise. -/
structure AttnP where
  toQ : Mat
  toK : Mat
  toV : Mat
  toOut : Option (Mat × Vec)

noncomputable def attnHeads (heads dh : ℕ) (p : AttnP) (q k v : Mat) : Mat :=
  let qm := q.map (linearNB p.toQ)
  let km := k.map (linearNB p.toK)
  let vm := v.map (linearNB p.toV)
  qm.map fun qr =>
    match p.toOut with
    | none => attnCore heads dh qr km vm
    | some wb => linearMap wb.1 wb.2 (attnCore heads dh qr km vm)

/-- Zero-padded access into a row, used by the padded convolutions. -/
noncomputable def padGet (v : Vec) (i : ℤ) : ℝ :=
  if 0 ≤ i then v.getD i.toNat 0 else 0

/-- One output position of a 1D convolution for one output channel, with
per-channel kernel rows W2 and zero padding pad. -/
noncomputable def conv1dEntry (W2 : Mat) (bias : ℝ) (pad ker : ℕ) (x : Mat) (t : ℕ) : ℝ :=
  bias + ((W2.zip x).map fun cw =>
    ∑ j ∈ Finset.range ker, cw.1.getD j 0 * padGet cw.2 ((t : ℤ) + (j : ℤ) - (pad : ℤ))).sum

/-- nn.Conv1d with zero padding; the weight is (out_channels, in_channels,
ker) and the bias has one entry per output channel. -/
noncomputable def conv1dVal (W : T3) (b : Vec) (pad ker : ℕ) (x : Mat) : Mat :=
  let L := (x.headD []).length
  (W.zip b).map fun wb =>
    (List.range (L + 2 * pad + 1 - ker)).map (conv1dEntry wb.1 wb.2 pad ker x)

/-- Affine parameters and running statistics of a batch normalisation layer,
applied per channel in evaluation mode with the default eps = 1e-5. -/
structure BnP where
  g : Vec
  be : Vec
  mu : Vec
  var : Vec

noncomputable def bn1dVal (p : BnP) (x : Mat) : Mat :=
  (List.range x.length).map fun c =>
    (x.getD c []).map fun a =>
      (a - p.mu.getD c 0) / Real.sqrt (p.var.getD c 0 + 1e-5) * p.g.getD c 0 + p.be.getD c 0

/-- nn.ELU with its default alpha = 1. -/
noncomputable def elu (a : ℝ) : ℝ := if 0 < a then a else Real.exp a - 1

/-- nn.MaxPool1d(kernel_size=2, stride=2) over one row: the output length is
the floor-halved input length (the tensor library rejects rows shorter
than 2; the shape-level semantics accounts for that). -/
noncomputable def maxPool1dRow (v : Vec) : Vec :=
  (List.range (v.length / 2)).map fun t => max (v.getD (2 * t) 0) (v.getD (2 * t + 1) 0)

/-- Stride-2 max pooling over the last (time) axis of a (tokens, time)
tensor; both self.pool of Transformer and the pooling in cnn_block. -/
noncomputable def maxPool1dVal (x : Mat) : Mat := x.map maxPool1dRow

/-- Parameters of Transformer.cnn_block: dropout (identity in evaluation
mode), Conv1d(in_chan, in_chan, kernel_size, padding=(kernel_size-1)/2),
BatchNorm1d(in_chan), ELU, MaxPool1d(2, 2). -/
structure CnnP where
  W : T3
  b : Vec
  ker : ℕ
  bn : BnP

noncomputable def cnnApply (p : CnnP) (x : Mat) : Mat :=
  maxPool1dVal ((bn1dVal p.bn (conv1dVal p.W p.b ((p.ker - 1) / 2) p.ker x)).map
    fun row => row.map elu)

/-- Transformer.get_info: torch.log(torch.mean(x.pow(2), dim=-1)), the log of
the time-axis mean square, one entry per token channel. -/
noncomputable def getInfo (x : Mat) : Vec :=
  x.map fun row => Real.log ((row.map fun a => a ^ 2).sum / row.length)

/-- The seven stored components of one HCT block of Transformer: the
self-attention module, the feed-forward module, the fine-grained cnn block,
the three query/key/value projection linears (with bias), and the
cross-channel transformer encoder layer. -/
structure HCTP where
  attn : AttnP
  ff : FFP
  cnn : CnnP
  Wq : Mat
  bq : Vec
  Wk : Mat
  bk : Vec
  Wv : Mat
  bv : Vec
  cross : CrossP

instance : Inhabited FFP := ⟨⟨[], [], [], [], [], []⟩⟩

instance : Inhabited CrossP := ⟨⟨[], [], default⟩⟩

instance : Inhabited AttnP := ⟨⟨[], [], [], none⟩⟩

instance : Inhabited BnP := ⟨⟨[], [], [], []⟩⟩

instance : Inhabited CnnP := ⟨⟨[], [], 0, default⟩⟩

instance : Inhabited HCTP := ⟨⟨default, default, default, [], [], [], [], [], [], default⟩⟩

instance : Inhabited ChanTup := ⟨⟨[], [], [], []⟩⟩

/-- The per-modality result of the first inner loop of Transformer.forward at
one depth level: the tuple stored into channels_output plus the dense
feature appended to the level's dense-feature list. -/
structure HctOut where
  x : Mat
  xq : Mat
  xk : Mat
  xv : Mat
  info : Vec

/-- One iteration of the first inner loop of Transformer.forward:
x_cg = pool(x); x_cg = attn(x_cg, x_cg, x_cg) + x_cg; x_fg = cnn(x);
x_info = get_info(x_fg); x = ff(x_cg) + x_fg; then the q/k/v projections. -/
noncomputable def hctBlock (heads dh : ℕ) (p : HCTP) (x : Mat) : HctOut :=
  let xcg := maxPool1dVal x
  let xcg2 := matAdd (attnHeads heads dh p.attn xcg xcg xcg) xcg
  let xfg := cnnApply p.cnn x
  let xinfo := getInfo xfg
  let x2 := matAdd (xcg2.map (ffwdApply p.ff)) xfg
  ⟨x2, x2.map (linearMap p.Wq p.bq), x2.map (linearMap p.Wk p.bk),
    x2.map (linearMap p.Wv p.bv), xinfo⟩

noncomputable def toTup (t : HctOut) : ChanTup := ⟨t.x, t.xq, t.xk, t.xv⟩

/-- The list built by the comprehension [h for n, h in enumerate(l) if n != i]. -/
def othersOf {α : Type _} (l : List α) (i : ℕ) : List α :=
  (l.enum.filter fun p => p.1 != i).map Prod.snd

/-- One depth level of Transformer.forward: the HCT blocks (first inner loop)
produce per-modality tuples and dense features, then the cross attention
blocks (second inner loop) produce the next level's channel list. -/
noncomputable def levelStep (heads dh : ℕ) (ps : List HCTP) (chans : List Mat) :
    List Mat × List Vec :=
  let outs := (ps.zip chans).map fun pc => hctBlock heads dh pc.1 pc.2
  let tups := outs.map toTup
  let newChans := (ps.zip tups.enum).map fun pt =>
    crossForward heads dh pt.1.cross pt.2.2.x pt.2.2.xq (othersOf tups pt.2.1)
  (newChans, outs.map HctOut.info)

/-- The depth-level loop of Transformer.forward: final channel list together
with the accumulated dense features, one list per level in level order. -/
noncomputable def levelsRun (heads dh : ℕ) :
    List (List HCTP) → List Mat → List Mat × List (List Vec)
  | [], chans => (chans, [])
  | L :: rest, chans =>
    let s := levelStep heads dh L chans
    let r := levelsRun heads dh rest s.1
    (r.1, s.2 :: r.2)

/-- The channel lists entering each depth level (and, last, leaving the final
level), used to trace which tensor each cnn block consumed. -/
noncomputable def chansAt (heads dh : ℕ) : List (List HCTP) → List Mat → List (List Mat)
  | [], chans => [chans]
  | L :: rest, chans => chans :: chansAt heads dh rest (levelStep heads dh L chans).1

/-- The compressor input for modality i: the flattened final token sequence
concatenated with the concatenation of that modality's dense features of
every level ([depth[i] for depth in dense_feature], torch.cat twice). -/
noncomputable def modalityComponents (chansF : List Mat) (dfs : List (List Vec)) (i : ℕ) : Vec :=
  (chansF.getD i []).flatten ++ (dfs.map fun lv => lv.getD i []).flatten

/-- Stored modules of the value-level Transformer. -/
structure TransP where
  heads : ℕ
  dh : ℕ
  layers : List (List HCTP)
  compress : List FFP
  outFF : FFP

/-- Transformer.forward: depth-level loop, per-modality compression of the
flattened final tokens concatenated with the dense features, concatenation of
the modality embeddings, and the output feed-forward. -/
noncomputable def transformerVal (p : TransP) (chans : List Mat) : Vec :=
  let r := levelsRun p.heads p.dh p.layers chans
  let embs := (List.range r.1.length).map fun i =>
    ffwdApply (p.compress.getD i default) (modalityComponents r.1 r.2 i)
  ffwdApply p.outFF embs.flatten

/-! ## The aggregate pool excludes exactly the querying modality -/

theorem enumFrom_filter_ne_map_snd {α : Type _} :
    ∀ (l : List α) (n i : ℕ),
      ((l.enumFrom n).filter fun p => p.1 != n + i).map Prod.snd = l.eraseIdx i := by
  intro l
  induction l with
  | nil => intro n i; rfl
  | cons a t ih =>
    intro n i
    cases i with
    | zero =>
      simp only [List.enumFrom_cons, List.filter_cons, Nat.add_zero, bne_self_eq_false,
        List.eraseIdx_cons_zero, if_neg Bool.false_ne_true]
      rw [List.filter_eq_self.2, List.enumFrom_map_snd]
      intro p hp
      have := List.le_fst_of_mem_enumFrom hp
      simp only [bne_iff_ne, ne_eq]
      omega
    | succ j =>
      have hne : (n != n + (j + 1)) = true := by
        simp only [bne_iff_ne, ne_eq]
        omega
      simp only [List.enumFrom_cons, List.filter_cons, hne, if_true, List.map_cons,
        List.eraseIdx_cons_succ]
      have harg : (fun p : ℕ × α => p.1 != n + (j + 1)) = fun p => p.1 != (n + 1) + j := by
        funext p
        have : n + (j + 1) = (n + 1) + j := by omega
        rw [this]
      rw [harg, ih (n + 1) j]

/-- The comprehension [h for n, h in enumerate(l) if n != i] keeps every
entry except the one at index i, in order. -/
theorem othersOf_eq_eraseIdx {α : Type _} (l : List α) (i : ℕ) :
    othersOf l i = l.eraseIdx i := by
  have h := enumFrom_filter_ne_map_snd l 0 i
  simpa [othersOf, List.enum] using h

/-- C1 counterexample: at a concrete one-token, one-feature instance with
zero projection weights, the cross-modal fusion layer returns
ffwd(x + sa(x_q, k_agg, v_agg)) = [[0]], while the claimed
x' + FFN(x') with x' = x + Attention(q, K_agg, V_agg) equals [[1]]:
the layer applies no residual connection around its feed-forward module. -/
theorem C1_counterexample :
    crossForward 1 1 cexP [[1]] [[1]] [⟨[[1]], [[1]], [[1]], [[1]]⟩] ≠
      crossForwardClaimed 1 1 cexP [[1]] [[1]] [⟨[[1]], [[1]], [[1]], [[1]]⟩] := by
  simp [crossForward, crossForwardClaimed, cexP, cexFF, matAdd, attnNoHeads,
    attnCore, linearMap, dot, ffwdApply, layerNorm, gelu, List.range_succ]

/-- C1 (amended): for every modality i at every depth level, the cross stage
output is FFN(x') where x' = x + Attention(q_i, K_agg, V_agg), the attention
result of modality i's query over the concatenated key and value projections
of all modalities other than i (in order, no self-contribution), added to
modality i's pre-projection representation x; the feed-forward refinement is
applied without a residual connection. -/
theorem C1_cross_stage_formula (heads dh : ℕ) (ps : List HCTP) (chans : List Mat)
    (i : ℕ) (hi : i < ps.length) (hlen : chans.length = ps.length) :
    (levelStep heads dh ps chans).1.getD i [] =
      (let tups := ((ps.zip chans).map fun pc => hctBlock heads dh pc.1 pc.2).map toTup
       (matAdd (tups.getD i default).x
          (attnNoHeads heads dh (ps.getD i default).cross.Wo (ps.getD i default).cross.bo
            (tups.getD i default).xq
            (((tups.eraseIdx i).map ChanTup.xk).flatten)
            (((tups.eraseIdx i).map ChanTup.xv).flatten))).map
        (ffwdApply (ps.getD i default).cross.ff)) := by
  have hzc : i < (ps.zip chans).length := by
    simp only [List.length_zip, hlen, Nat.min_self]
    exact hi
  have houts : i < ((ps.zip chans).map fun pc => hctBlock heads dh pc.1 pc.2).length := by
    simpa using hzc
  have htups : i < (((ps.zip chans).map fun pc => hctBlock heads dh pc.1 pc.2).map toTup).length := by
    simpa using hzc
  have henum : i < ((((ps.zip chans).map fun pc => hctBlock heads dh pc.1 pc.2).map
      toTup).enum).length := by
    simpa using hzc
  have hz2 : i < (ps.zip ((((ps.zip chans).map fun pc =>
      hctBlock heads dh pc.1 pc.2).map toTup).enum)).length := by
    simp only [List.length_zip, List.enum_length, List.length_map]
    simp only [List.length_zip, hlen, Nat.min_self]
    omega
  have hmap : i < ((ps.zip ((((ps.zip chans).map fun pc =>
      hctBlock heads dh pc.1 pc.2).map toTup).enum)).map fun pt =>
        crossForward heads dh pt.1.cross pt.2.2.x pt.2.2.xq
          (othersOf (((ps.zip chans).map fun pc =>
            hctBlock heads dh pc.1 pc.2).map toTup) pt.2.1)).length := by
    simpa using hz2
  simp only [levelStep]
  rw [List.getD_eq_getElem _ _ hmap, List.getElem_map, List.getElem_zip, List.getElem_enum]
  rw [List.getD_eq_getElem _ _ htups, List.getD_eq_getElem _ _ hi]
  rw [othersOf_eq_eraseIdx]
  rfl

/-- Witness for C1 (amended) at a concrete two-modality level. -/
theorem C1_cross_stage_formula_witness :
    (0 : ℕ) < ([default, default] : List HCTP).length ∧
      ([[[1]], [[2]]] : List Mat).length = ([default, default] : List HCTP).length ∧
      (levelStep 1 1 [default, default] [[[1]], [[2]]]).1.getD 0 [] =
        (let tups := (([default, default].zip ([[[1]], [[2]]] : List Mat)).map fun pc =>
            hctBlock 1 1 pc.1 pc.2).map toTup
         (matAdd (tups.getD 0 default).x
            (attnNoHeads 1 1 (([default, default] : List HCTP).getD 0 default).cross.Wo
              (([default, default] : List HCTP).getD 0 default).cross.bo
              (tups.getD 0 default).xq
              (((tups.eraseIdx 0).map ChanTup.xk).flatten)
              (((tups.eraseIdx 0).map ChanTup.xv).flatten))).map
          (ffwdApply (([default, default] : List HCTP).getD 0 default).cross.ff)) := by
  refine ⟨by simp, by simp, ?_⟩
  exact C1_cross_stage_formula 1 1 [default, default] [[[1]], [[2]]] 0 (by simp) (by simp)

/-! ## Dense feature accumulation across depth levels -/

theorem levelStep_fst_length (heads dh : ℕ) (ps : List HCTP) (chans : List Mat) :
    (levelStep heads dh ps chans).1.length = min ps.length chans.length := by
  simp only [levelStep, List.length_map, List.length_zip, List.enum_length]
  omega

theorem chansAt_length (heads dh : ℕ) :
    ∀ (layers : List (List HCTP)) (chans : List Mat),
      (chansAt heads dh layers chans).length = layers.length + 1
  | [], _ => rfl
  | L :: rest, chans => by
    simp [chansAt, chansAt_length heads dh rest]

theorem chansAt_lengths (heads dh : ℕ) (layers : List (List HCTP)) :
    ∀ (chans : List Mat) (M : ℕ), chans.length = M → (∀ L ∈ layers, L.length = M) →
      ∀ ch ∈ chansAt heads dh layers chans, ch.length = M := by
  induction layers with
  | nil =>
    intro chans M hM _ ch hch
    simp only [chansAt, List.mem_singleton] at hch
    subst hch
    exact hM
  | cons L rest ih =>
    intro chans M hM hL ch hch
    simp only [chansAt, List.mem_cons] at hch
    rcases hch with rfl | hch
    · exact hM
    · refine ih _ M ?_ (fun L' h => hL L' (List.mem_cons_of_mem _ h)) ch hch
      rw [levelStep_fst_length, hL L (List.mem_cons_self _ _), hM, Nat.min_self]

theorem levelsRun_snd_eq (heads dh : ℕ) :
    ∀ (layers : List (List HCTP)) (chans : List Mat),
      (levelsRun heads dh layers chans).2 =
        (layers.zip (chansAt heads dh layers chans)).map fun Lc =>
          (Lc.1.zip Lc.2).map fun pc => getInfo (cnnApply pc.1.cnn pc.2)
  | [], _ => rfl
  | L :: rest, chans => by
    simp only [levelsRun, chansAt, List.zip_cons_cons, List.map_cons]
    refine congrArg₂ List.cons ?_ (levelsRun_snd_eq heads dh rest _)
    simp only [levelStep, List.map_map]
    rfl

/-- C6: at every depth level each modality produces exactly one dense
feature, the log of the time-axis mean square of the output of that level's
fine-grained cnn block on the modality's incoming token sequence; the levels
accumulate in order, one dense-feature list per level with one vector per
modality, and for each modality the compressor input is the flattened final
token sequence concatenated with exactly its per-level dense features in
level order. -/
theorem C6_dense_features (heads dh : ℕ) (layers : List (List HCTP)) (chans : List Mat)
    (M : ℕ) (hM : chans.length = M) (hL : ∀ L ∈ layers, L.length = M) :
    (levelsRun heads dh layers chans).2 =
        ((layers.zip (chansAt heads dh layers chans)).map fun Lc =>
          (Lc.1.zip Lc.2).map fun pc => getInfo (cnnApply pc.1.cnn pc.2)) ∧
      (levelsRun heads dh layers chans).2.length = layers.length ∧
      (∀ lv ∈ (levelsRun heads dh layers chans).2, lv.length = M) ∧
      (∀ i, i < M →
        modalityComponents (levelsRun heads dh layers chans).1
            (levelsRun heads dh layers chans).2 i =
          ((levelsRun heads dh layers chans).1.getD i []).flatten ++
            ((layers.zip (chansAt heads dh layers chans)).map fun Lc =>
              getInfo (cnnApply ((Lc.1.getD i default).cnn) (Lc.2.getD i []))).flatten) ∧
      ∀ x : Mat, getInfo x =
        x.map fun row => Real.log ((row.map fun a => a ^ 2).sum / row.length) := by
  have h1 := levelsRun_snd_eq heads dh layers chans
  have hcl := chansAt_length heads dh layers chans
  refine ⟨h1, ?_, ?_, ?_, fun x => rfl⟩
  · rw [h1]
    simp only [List.length_map, List.length_zip, hcl]
    omega
  · intro lv hlv
    rw [h1] at hlv
    obtain ⟨Lc, hLc, rfl⟩ := List.mem_map.1 hlv
    have h2 := List.of_mem_zip hLc
    have e1 : Lc.1.length = M := hL _ h2.1
    have e2 : Lc.2.length = M := chansAt_lengths heads dh layers chans M hM hL _ h2.2
    simp only [List.length_map, List.length_zip, e1, e2, Nat.min_self]
  · intro i hiM
    rw [modalityComponents, h1]
    congr 1
    rw [List.map_map]
    refine congrArg List.flatten (List.map_congr_left ?_)
    intro Lc hLc
    have h2 := List.of_mem_zip hLc
    have e1 : Lc.1.length = M := hL _ h2.1
    have e2 : Lc.2.length = M := chansAt_lengths heads dh layers chans M hM hL _ h2.2
    have hi1 : i < Lc.1.length := by omega
    have hi2 : i < Lc.2.length := by omega
    have hiz : i < (Lc.1.zip Lc.2).length := by
      simp only [List.length_zip]
      omega
    have him : i < ((Lc.1.zip Lc.2).map fun pc => getInfo (cnnApply pc.1.cnn pc.2)).length := by
      simpa using hiz
    simp only [Function.comp_apply]
    rw [List.getD_eq_getElem _ _ him, List.getElem_map, List.getElem_zip]
    rw [List.getD_eq_getElem _ _ hi1, List.getD_eq_getElem _ _ hi2]

/-- Witness for C6 at a one-modality, one-level instance. -/
theorem C6_dense_features_witness :
    ([[[1, 2]]] : List Mat).length = 1 ∧
      (∀ L ∈ ([[default]] : List (List HCTP)), L.length = 1) ∧
      (levelsRun 1 1 [[default]] [[[1, 2]]]).2 =
        (([[default]] : List (List HCTP)).zip (chansAt 1 1 [[default]] [[[1, 2]]])).map
          fun Lc => (Lc.1.zip Lc.2).map fun pc => getInfo (cnnApply pc.1.cnn pc.2) := by
  have hM : ([[[1, 2]]] : List Mat).length = 1 := rfl
  have hL : ∀ L ∈ ([[default]] : List (List HCTP)), L.length = 1 := by
    intro L hl
    simp only [List.mem_singleton] at hl
    subst hl
    rfl
  exact ⟨hM, hL, (C6_dense_features 1 1 [[default]] [[[1, 2]]] 1 hM hL).1⟩

/-! ## Value-level modality encoder front end (MultiChannelDeformer.cnn_block)

The front end is the only place where stored tensors are written during a
forward call: Conv2dWithConstraint.forward assigns the renormalised weight
back into its stored weight before convolving. The semantics below passes
that state explicitly. -/

noncomputable def padGet2 (m : Mat) (i j : ℤ) : ℝ :=
  if 0 ≤ i ∧ 0 ≤ j then (m.getD i.toNat []).getD j.toNat 0 else 0

noncomputable def conv2dEntry (W3 : T3) (bias : ℝ) (ph pw kh kw : ℕ) (x : T3)
    (i j : ℕ) : ℝ :=
  bias + ((W3.zip x).map fun cw =>
    ∑ di ∈ Finset.range kh, ∑ dj ∈ Finset.range kw,
      (cw.1.getD di []).getD dj 0 *
        padGet2 cw.2 ((i : ℤ) + (di : ℤ) - (ph : ℤ)) ((j : ℤ) + (dj : ℤ) - (pw : ℤ))).sum

/-- nn.Conv2d with zero padding (ph, pw); the weight is shaped
(out_channels, in_channels, kh, kw). -/
noncomputable def conv2dVal (W : T4) (b : Vec) (ph pw kh kw : ℕ) (x : T3) : T3 :=
  let H := (x.headD []).length
  let Wd := ((x.headD []).headD []).length
  (W.zip b).map fun wb =>
    (List.range (H + 2 * ph + 1 - kh)).map fun i =>
      (List.range (Wd + 2 * pw + 1 - kw)).map fun j =>
        conv2dEntry wb.1 wb.2 ph pw kh kw x i j

/-- Conv2dWithConstraint.forward: the stored weight is first destructively
renormalised (torch.renorm with p=2, dim=0, maxnorm=max_norm; doWeightNorm is
left at its default True here) and the convolution then uses the
renormalised weight; the updated stored weight is returned with the output. -/
noncomputable def convConstrainedS (mn : ℝ) (W : T4) (b : Vec) (ph pw kh kw : ℕ)
    (x : T3) : T4 × T3 :=
  let W2 := renormW mn W
  (W2, conv2dVal W2 b ph pw kh kw x)

/-- nn.BatchNorm2d in evaluation mode, per channel, eps = 1e-5. -/
noncomputable def bn2dVal (p : BnP) (x : T3) : T3 :=
  (List.range x.length).map fun c =>
    (x.getD c []).map fun row => row.map fun a =>
      (a - p.mu.getD c 0) / Real.sqrt (p.var.getD c 0 + 1e-5) * p.g.getD c 0 + p.be.getD c 0

/-- Stored state of one modality's front-end encoder built by
MultiChannelDeformer.cnn_block: the temporal constrained convolution with
kernel (1, tk) and padding (0, (tk - 1) / 2), the optional spatial
constrained convolution with kernel (num_chan, 1) (present exactly when the
modality has more than one channel; spatial stores its weight, bias and
channel count), and the batch normalisation. Both convolutions use
max_norm = 2. -/
structure FrontP where
  c1W : T4
  c1b : Vec
  tk : ℕ
  spatial : Option (T4 × Vec × ℕ)
  bn : BnP

/-- One front-end forward call: temporal constrained convolution, optional
spatial constrained convolution, batch normalisation, ELU; the returned state
records the weight renormalisations performed along the way. -/
noncomputable def frontForwardS (p : FrontP) (x : T3) : FrontP × T3 :=
  let r1 := convConstrainedS 2 p.c1W p.c1b 0 ((p.tk - 1) / 2) 1 p.tk x
  let r2 : Option (T4 × Vec × ℕ) × T3 :=
    match p.spatial with
    | none => (none, r1.2)
    | some s =>
      let r := convConstrainedS 2 s.1 s.2.1 0 0 s.2.2 1 r1.2
      (some (r.1, s.2.1, s.2.2), r.2)
  (⟨r1.1, p.c1b, p.tk, r2.1, p.bn⟩,
    (bn2dVal p.bn r2.2).map fun m => m.map fun row => row.map elu)

/-- The front-end state after one forward call: both constrained convolution
weights renormalised, every other stored tensor untouched. -/
noncomputable def renormFront (f : FrontP) : FrontP :=
  ⟨renormW 2 f.c1W, f.c1b, f.tk, f.spatial.map fun s => (renormW 2 s.1, s.2.1, s.2.2), f.bn⟩

theorem frontForwardS_state (p : FrontP) (x : T3) :
    (frontForwardS p x).1 = renormFront p := by
  cases hs : p.spatial <;> simp [frontForwardS, renormFront, convConstrainedS, hs]

theorem frontForwardS_again (p : FrontP) (x : T3) :
    frontForwardS (renormFront p) x = (renormFront p, (frontForwardS p x).2) := by
  cases hs : p.spatial <;>
    simp [frontForwardS, renormFront, convConstrainedS, hs, renormW_idem 2 zero_le_two]

/-- Stored state of the whole encoder: per-modality front ends, positional
embeddings, and the transformer modules. -/
structure MCDP where
  fronts : List FrontP
  posEmbs : List Mat
  trans : TransP

/-- Rearrange 'b k c f -> b k (c f)' (to_patch_embedding). -/
noncomputable def toPatchEmbedding (x : T3) : Mat := x.map List.flatten

/-- The per-modality front-end loop of MultiChannelDeformer.forward:
unsqueeze to (1, channels, time), the cnn encoder, the patch rearrange, the
positional embedding added; each result is written back into the
caller-supplied channel list. Returns the updated front-end states with the
token sequences. -/
noncomputable def frontStageS (fronts : List FrontP) (posEmbs : List Mat)
    (inputs : List Mat) : List FrontP × List Mat :=
  let rs := (fronts.zip (inputs.zip posEmbs)).map fun fip =>
    let r := frontForwardS fip.1 [fip.2.1]
    (r.1, matAdd (toPatchEmbedding r.2) fip.2.2)
  (rs.map Prod.fst, rs.map Prod.snd)

/-- MultiChannelDeformer.forward with explicit parameter state: the
front-end loop threads the constrained-convolution weight updates, and the
transformer (whose forward assigns no stored tensor) is applied purely. -/
noncomputable def mcdForwardS (p : MCDP) (inputs : List Mat) : MCDP × Vec :=
  let fs := frontStageS p.fronts p.posEmbs inputs
  (⟨fs.1, p.posEmbs, p.trans⟩, transformerVal p.trans fs.2)

theorem renormFront_idem (f : FrontP) : renormFront (renormFront f) = renormFront f := by
  cases hs : f.spatial <;>
    simp [renormFront, hs, renormW_idem 2 zero_le_two]

theorem frontStageS_fst (fronts : List FrontP) (posEmbs inputs : List Mat)
    (h : fronts.length ≤ (inputs.zip posEmbs).length) :
    (frontStageS fronts posEmbs inputs).1 = fronts.map renormFront := by
  show List.map Prod.fst ((fronts.zip (inputs.zip posEmbs)).map fun fip =>
      ((frontForwardS fip.1 [fip.2.1]).1,
        matAdd (toPatchEmbedding (frontForwardS fip.1 [fip.2.1]).2) fip.2.2)) =
    fronts.map renormFront
  rw [List.map_map]
  have hpt : (Prod.fst ∘ fun fip : FrontP × (Mat × Mat) =>
      ((frontForwardS fip.1 [fip.2.1]).1,
        matAdd (toPatchEmbedding (frontForwardS fip.1 [fip.2.1]).2) fip.2.2)) =
      renormFront ∘ Prod.fst := by
    funext fip
    simp [frontForwardS_state]
  rw [hpt, ← List.map_map, List.map_fst_zip _ _ h]

theorem frontStageS_renormed (fronts : List FrontP) (posEmbs inputs : List Mat) :
    frontStageS (fronts.map renormFront) posEmbs inputs =
      frontStageS fronts posEmbs inputs := by
  unfold frontStageS
  rw [List.zip_map_left, List.map_map]
  have hpt : ((fun fip : FrontP × (Mat × Mat) =>
        ((frontForwardS fip.1 [fip.2.1]).1,
          matAdd (toPatchEmbedding (frontForwardS fip.1 [fip.2.1]).2) fip.2.2)) ∘
      Prod.map renormFront id) =
      fun fip : FrontP × (Mat × Mat) =>
        ((frontForwardS fip.1 [fip.2.1]).1,
          matAdd (toPatchEmbedding (frontForwardS fip.1 [fip.2.1]).2) fip.2.2) := by
    funext fip
    simp [Prod.map, frontForwardS_again, frontForwardS_state, renormFront_idem]
  rw [hpt]

/-- C8: during a forward evaluation (evaluation-mode semantics) the only
stored tensors the encoder writes are the constrained convolution kernels,
which are renormalised immediately before use: the post-state equals the
pre-state with exactly those weights renormalised, positional embeddings and
all transformer parameters unchanged; and a second forward call from the
post-state is a fixed point, returning the identical state and the identical
output, so the output is a pure function of the input batch and the current
parameters. -/
theorem C8_forward_frame (p : MCDP) (inputs : List Mat)
    (hlen : p.fronts.length ≤ min inputs.length p.posEmbs.length) :
    (mcdForwardS p inputs).1.fronts = p.fronts.map renormFront ∧
      (mcdForwardS p inputs).1.posEmbs = p.posEmbs ∧
      (mcdForwardS p inputs).1.trans = p.trans ∧
      mcdForwardS (mcdForwardS p inputs).1 inputs = mcdForwardS p inputs := by
  have hzz : p.fronts.length ≤ (inputs.zip p.posEmbs).length := by
    rw [List.length_zip]
    exact hlen
  have h1 : (mcdForwardS p inputs).1.fronts = p.fronts.map renormFront :=
    frontStageS_fst p.fronts p.posEmbs inputs hzz
  refine ⟨h1, rfl, rfl, ?_⟩
  show mcdForwardS ⟨(frontStageS p.fronts p.posEmbs inputs).1, p.posEmbs, p.trans⟩ inputs =
    mcdForwardS p inputs
  have h1' : (frontStageS p.fronts p.posEmbs inputs).1 = p.fronts.map renormFront := h1
  rw [h1']
  show (⟨(frontStageS (p.fronts.map renormFront) p.posEmbs inputs).1, p.posEmbs, p.trans⟩,
      transformerVal p.trans (frontStageS (p.fronts.map renormFront) p.posEmbs inputs).2) =
    mcdForwardS p inputs
  rw [frontStageS_renormed]
  rfl

/-- Witness for C8 at a one-modality instance. -/
theorem C8_forward_frame_witness :
    (([⟨[[[[1]]]], [0], 1, none, ⟨[1], [0], [0], [1]⟩⟩] : List FrontP).length ≤
        min ([[[1]]] : List Mat).length ([[[0]]] : List Mat).length) ∧
      (mcdForwardS ⟨[⟨[[[[1]]]], [0], 1, none, ⟨[1], [0], [0], [1]⟩⟩], [[[0]]],
          ⟨1, 1, [], [], default⟩⟩ [[[1]]]).1.fronts =
        ([⟨[[[[1]]]], [0], 1, none, ⟨[1], [0], [0], [1]⟩⟩] : List FrontP).map renormFront := by
  have hlen : (([⟨[[[[1]]]], [0], 1, none, ⟨[1], [0], [0], [1]⟩⟩] : List FrontP).length ≤
      min ([[[1]]] : List Mat).length ([[[0]]] : List Mat).length) := by
    simp
  exact ⟨hlen, (C8_forward_frame ⟨[⟨[[[[1]]]], [0], 1, none, ⟨[1], [0], [0], [1]⟩⟩], [[[0]]],
    ⟨1, 1, [], [], default⟩⟩ [[[1]]] hlen).1⟩

/-! ## Final contents of the caller-supplied channel list -/

/-- A Python object held in the caller-supplied channel list: either a tensor
(raw input or token sequence) or the (x, x_q, x_k, x_v) tuple written by the
first depth level of Transformer.forward. -/
inductive PyObj where
  | mat : Mat → PyObj
  | tup : Mat → Mat → Mat → Mat → PyObj

def PyObj.isMat : PyObj → Bool
  | .mat _ => true
  | .tup _ _ _ _ => false

/-- The contents of the caller-supplied list object after
Transformer.forward: the first inner loop of the first depth level overwrites
channels_output[i] with the (x, x_q, x_k, x_v) tuple for every block index i
(the later statement channels_output = new_channels_output only rebinds the
local name to a fresh list, leaving the original list object alone, as do all
subsequent levels); with no depth levels the list is untouched. -/
noncomputable def transformerListAfter (p : TransP) (chans : List Mat) : List PyObj :=
  match p.layers with
  | [] => chans.map PyObj.mat
  | L :: _ =>
    ((L.zip chans).map fun pc =>
      let t := hctBlock p.heads p.dh pc.1 pc.2
      PyObj.tup t.x t.xq t.xk t.xv) ++ (chans.drop L.length).map PyObj.mat

/-- MultiChannelDeformer.forward together with the final contents of the
caller-supplied channel list: the front-end loop overwrites channels[i] with
the token sequence, and the same list object is then handed to
Transformer.forward. -/
noncomputable def mcdForwardL (p : MCDP) (inputs : List Mat) : Vec × List PyObj :=
  let fs := frontStageS p.fronts p.posEmbs inputs
  (transformerVal p.trans fs.2, transformerListAfter p.trans fs.2)

/-- Concrete one-channel front-end state used by the C10 instance. -/
noncomputable def cexFront : FrontP := ⟨[[[[1]]]], [0], 1, none, ⟨[1], [0], [0], [1]⟩⟩

/-- Concrete two-modality, depth-one encoder state used by the C10 instance. -/
noncomputable def cexMCDP : MCDP :=
  ⟨[cexFront, cexFront], [[[0]], [[0]]],
    ⟨1, 1, [[default, default]], [default, default], default⟩⟩

/-- C10 counterexample: at a concrete two-modality, depth-one instance, after
the forward call the first entry of the caller-supplied list is not a tensor
at all (so in particular not the modality's token-sequence intermediate): it
is the (x, x_q, x_k, x_v) tuple written by the first depth level. -/
theorem C10_counterexample :
    ((mcdForwardL cexMCDP [[[1]], [[1]]]).2.getD 0 (PyObj.mat [])).isMat = false := by
  rfl

/-- C10 (amended): MultiChannelDeformer.forward mutates the caller-supplied
list in place, but with at least one depth level entry i ends up holding the
(x, x_q, x_k, x_v) tuple produced for modality i by the first depth level's
HCT block (an internal intermediate that is not a single token-sequence
tensor); only with zero depth levels would it hold the modality's
token sequence. -/
theorem C10_list_mutation (p : MCDP) (inputs : List Mat) (L : List HCTP)
    (rest : List (List HCTP)) (hlay : p.trans.layers = L :: rest)
    (hlen : L.length ≤ (frontStageS p.fronts p.posEmbs inputs).2.length) :
    (mcdForwardL p inputs).2 =
        ((L.zip (frontStageS p.fronts p.posEmbs inputs).2).map fun pc =>
          let t := hctBlock p.trans.heads p.trans.dh pc.1 pc.2
          PyObj.tup t.x t.xq t.xk t.xv) ++
          ((frontStageS p.fronts p.posEmbs inputs).2.drop L.length).map PyObj.mat ∧
      ∀ q ∈ (mcdForwardL p inputs).2.take L.length, q.isMat = false := by
  have h1 : (mcdForwardL p inputs).2 =
      ((L.zip (frontStageS p.fronts p.posEmbs inputs).2).map fun pc =>
        let t := hctBlock p.trans.heads p.trans.dh pc.1 pc.2
        PyObj.tup t.x t.xq t.xk t.xv) ++
        ((frontStageS p.fronts p.posEmbs inputs).2.drop L.length).map PyObj.mat := by
    simp only [mcdForwardL, transformerListAfter, hlay]
  refine ⟨h1, ?_⟩
  rw [h1]
  intro q hq
  have hA : ((L.zip (frontStageS p.fronts p.posEmbs inputs).2).map fun pc =>
      let t := hctBlock p.trans.heads p.trans.dh pc.1 pc.2
      PyObj.tup t.x t.xq t.xk t.xv).length = L.length := by
    simp only [List.length_map, List.length_zip]
    omega
  rw [List.take_left' hA] at hq
  obtain ⟨pc, _, rfl⟩ := List.mem_map.1 hq
  rfl

/-- Witness for C10 (amended) at the concrete two-modality instance. -/
theorem C10_list_mutation_witness :
    cexMCDP.trans.layers = [([default, default] : List HCTP)] ∧
      ([default, default] : List HCTP).length ≤
        (frontStageS cexMCDP.fronts cexMCDP.posEmbs [[[1]], [[1]]]).2.length ∧
      ∀ q ∈ (mcdForwardL cexMCDP [[[1]], [[1]]]).2.take
          ([default, default] : List HCTP).length, q.isMat = false := by
  have hlay : cexMCDP.trans.layers = ([default, default] : List HCTP) :: [] := rfl
  have hlen : ([default, default] : List HCTP).length ≤
      (frontStageS cexMCDP.fronts cexMCDP.posEmbs [[[1]], [[1]]]).2.length := by
    simp [frontStageS, cexMCDP, cexFront]
  exact ⟨hlay, hlen,
    (C10_list_mutation cexMCDP [[[1]], [[1]]] [default, default] [] hlay hlen).2⟩

/-! ## Shape-level semantics

Shapes are tracked exactly; an operation the tensor library would reject
(kernel larger than the padded input, empty convolution output, mismatched
channel counts, out-of-range list index, concatenation of an empty tensor
list, mismatched elementwise addition) yields none. -/

structure Sh4 where
  b : ℕ
  c : ℕ
  h : ℕ
  w : ℕ
  deriving DecidableEq

structure Sh3 where
  b : ℕ
  k : ℕ
  d : ℕ
  deriving DecidableEq

structure Sh2 where
  b : ℕ
  d : ℕ
  deriving DecidableEq

/-- A layer of the front-end 2D block. The constrained convolution carries
in_channels, out_channels, kernel (kh, kw) and padding (ph, pw); its
max_norm = 2 affects only values, not shapes or parameter counts. -/
inductive Layer2d where
  | convC : ℕ → ℕ → ℕ → ℕ → ℕ → ℕ → Layer2d
  | ident : Layer2d
  | bn2d : ℕ → Layer2d
  | elu2d : Layer2d
  deriving DecidableEq

/-- MultiChannelDeformer.cnn_block: Conv2dWithConstraint(1, out_chan,
(1, tk), padding=(0, (tk - 1) / 2), max_norm=2); the spatial
Conv2dWithConstraint(out_chan, out_chan, (num_chan, 1), padding=0,
max_norm=2) exactly when num_chan > 1 and nn.Identity() otherwise;
BatchNorm2d(out_chan); ELU. -/
def mcdCnnBlock (out_chan tk num_chan : ℕ) : List Layer2d :=
  [Layer2d.convC 1 out_chan 1 tk 0 ((tk - 1) / 2),
   if 1 < num_chan then Layer2d.convC out_chan out_chan num_chan 1 0 0 else Layer2d.ident,
   Layer2d.bn2d out_chan,
   Layer2d.elu2d]

/-- Modelled from the spec: the front-end block of the no-spatial-convolution
configuration, the comparison point named by C7. -/
def mcdCnnBlockNoSpatial (out_chan tk : ℕ) : List Layer2d :=
  [Layer2d.convC 1 out_chan 1 tk 0 ((tk - 1) / 2),
   Layer2d.bn2d out_chan,
   Layer2d.elu2d]

/-- Learned parameter count of one layer: convolutions count weight and bias
entries, batch normalisation its affine pair (running statistics are buffers
without requires_grad), the identity and activations nothing. -/
def layer2dParams : Layer2d → ℕ
  | .convC inC outC kh kw _ _ => outC * inC * kh * kw + outC
  | .ident => 0
  | .bn2d c => 2 * c
  | .elu2d => 0

/-- Shape semantics of one 2D layer. -/
def layer2dSh : Layer2d → Sh4 → Option Sh4
  | .convC inC outC kh kw ph pw, s =>
    if s.c = inC ∧ 1 ≤ kh ∧ 1 ≤ kw ∧ kh ≤ s.h + 2 * ph ∧ kw ≤ s.w + 2 * pw then
      some ⟨s.b, outC, s.h + 2 * ph + 1 - kh, s.w + 2 * pw + 1 - kw⟩
    else none
  | .ident, s => some s
  | .bn2d c, s => if s.c = c then some s else none
  | .elu2d, s => some s

/-- nn.Sequential at shape level. -/
def seq2dSh : List Layer2d → Sh4 → Option Sh4
  | [], s => some s
  | l :: ls, s => (layer2dSh l s).bind (seq2dSh ls)

/-- C7: the spatial channel-collapsing convolution appears in the front-end
block exactly when the modality's channel count exceeds one; for channel
count 1 that slot is the identity, it contributes zero learned parameters,
the block's total parameter count equals the no-spatial-convolution
configuration, and the block transforms every input shape exactly as that
configuration does. -/
theorem C7_spatial_conv (oc tk nc : ℕ) :
    ((mcdCnnBlock oc tk nc).getD 1 Layer2d.ident =
        (if 1 < nc then Layer2d.convC oc oc nc 1 0 0 else Layer2d.ident)) ∧
      (nc = 1 →
        (mcdCnnBlock oc tk nc).getD 1 Layer2d.ident = Layer2d.ident ∧
          layer2dParams ((mcdCnnBlock oc tk nc).getD 1 Layer2d.ident) = 0 ∧
          ((mcdCnnBlock oc tk nc).map layer2dParams).sum =
            ((mcdCnnBlockNoSpatial oc tk).map layer2dParams).sum ∧
          ∀ s : Sh4, seq2dSh (mcdCnnBlock oc tk nc) s =
            seq2dSh (mcdCnnBlockNoSpatial oc tk) s) := by
  refine ⟨rfl, ?_⟩
  intro hnc
  subst hnc
  have hsum : ((mcdCnnBlock oc tk 1).map layer2dParams).sum =
      ((mcdCnnBlockNoSpatial oc tk).map layer2dParams).sum := by
    simp [mcdCnnBlock, mcdCnnBlockNoSpatial, layer2dParams]
  refine ⟨rfl, rfl, hsum, fun s => ?_⟩
  show seq2dSh [Layer2d.convC 1 oc 1 tk 0 ((tk - 1) / 2), Layer2d.ident,
      Layer2d.bn2d oc, Layer2d.elu2d] s = _
  simp only [seq2dSh, mcdCnnBlockNoSpatial]
  cases layer2dSh (Layer2d.convC 1 oc 1 tk 0 ((tk - 1) / 2)) s <;> rfl

/-- Witness for C7 at out_chan = 2, temporal kernel 3, channel count 1. -/
theorem C7_spatial_conv_witness :
    (mcdCnnBlock 2 3 1).getD 1 Layer2d.ident = Layer2d.ident ∧
      ((mcdCnnBlock 2 3 1).map layer2dParams).sum =
        ((mcdCnnBlockNoSpatial 2 3).map layer2dParams).sum ∧
      seq2dSh (mcdCnnBlock 2 3 1) ⟨1, 1, 1, 8⟩ = seq2dSh (mcdCnnBlockNoSpatial 2 3) ⟨1, 1, 1, 8⟩ := by
  have h := (C7_spatial_conv 2 3 1).2 rfl
  exact ⟨h.1, h.2.2.1, h.2.2.2 ⟨1, 1, 1, 8⟩⟩

/-! ## Shape-level construction (MultiChannelDeformer.__init__) -/

/-- Full construction configuration (the dropout rate is omitted: it affects
neither shapes nor evaluation-mode values). -/
structure MCDCfg where
  num_time : List ℕ
  num_chan : List ℕ
  mlp_dim : List ℕ
  num_kernel : List ℕ
  temporal_kernel : List ℕ
  emb_dim : List ℕ
  depth : ℕ
  heads : ℕ
  dim_head : ℕ
  out_dim : ℕ
  deriving DecidableEq

/-- Configuration of one HCT block at one depth level. -/
structure HctCfg where
  dim : ℕ
  mlp : ℕ
  in_chan : ℕ
  ker : ℕ
  deriving DecidableEq

instance : Inhabited HctCfg := ⟨⟨0, 0, 0, 0⟩⟩

/-- The per-level construction loop of Transformer.__init__: at each level
the per-modality dims list is halved first, and the level's blocks read
dims[k], mlp_dims[k], fine_grained_kernels[k], in_chans[k] for every k below
the length of dims (an out-of-range index fails at construction). -/
def transInitLayers : List ℕ → ℕ → List ℕ → List ℕ → List ℕ →
    Option (List (List HctCfg))
  | _, 0, _, _, _ => some []
  | dims, d + 1, mlps, chans, kers => do
    let dims2 := dims.map fun t => t / 2
    let lvl ← (List.range dims2.length).mapM fun k => do
      let dim ← dims2[k]?
      let mlp ← mlps[k]?
      let ker ← kers[k]?
      let ch ← chans[k]?
      pure (HctCfg.mk dim mlp ch ker)
    let rest ← transInitLayers dims2 d mlps chans kers
    pure (lvl :: rest)

/-- Constructed encoder, at shape level: front-end blocks, positional
embedding shapes (num_kern, num_time), per-level block configurations, the
cross-layer hidden width sum(mlp_dims), the compression sizes
(get_modality_output_sizes zipped with emb_dims), and the output head. -/
structure MCDDesc where
  fronts : List (List Layer2d)
  posEmbs : List (ℕ × ℕ)
  heads : ℕ
  dh : ℕ
  layers : List (List HctCfg)
  mlpSum : ℕ
  compress : List (ℕ × ℕ)
  embSum : ℕ
  outDim : ℕ
  deriving DecidableEq

/-- MultiChannelDeformer.__init__ together with Transformer.__init__:
construction performs no hyperparameter validation (the source contains no
assert or raise); it can fail only when the per-level loop indexes one of the
parallel configuration lists out of range. -/
def mcdInit (c : MCDCfg) : Option MCDDesc := do
  let fronts := ((c.num_chan.zip c.num_kernel).zip c.temporal_kernel).map fun p =>
    mcdCnnBlock p.1.2 p.2 p.1.1
  let posEmbs := (c.num_time.zip c.num_kernel).map fun p => (p.2, p.1)
  let layers ← transInitLayers c.num_time c.depth c.mlp_dim c.num_kernel c.temporal_kernel
  let compress := (get_modality_output_sizes c.num_time c.depth c.num_kernel).zip c.emb_dim
  pure ⟨fronts, posEmbs, c.heads, c.dim_head, layers, c.mlp_dim.sum, compress,
    c.emb_dim.sum, c.out_dim⟩

/-! ## Shape-level forward -/

/-- Elementwise addition requires identical shapes. -/
def addSh (a b : Sh3) : Option Sh3 := if a = b then some a else none

/-- nn.Linear over the last axis. -/
def linearSh (inF outF : ℕ) (s : Sh3) : Option Sh3 :=
  if s.d = inF then some ⟨s.b, s.k, outF⟩ else none

/-- nn.MaxPool1d(2, 2): rejected below length 2; output length is the floor
half ((d - 2) / 2 + 1 = d / 2 for d at least 2). -/
def maxPool1dSh (s : Sh3) : Option Sh3 :=
  if 2 ≤ s.d then some ⟨s.b, s.k, s.d / 2⟩ else none

/-- nn.Conv1d over the last axis with zero padding. -/
def conv1dSh (inC outC ker pad : ℕ) (s : Sh3) : Option Sh3 :=
  if s.k = inC ∧ 1 ≤ ker ∧ ker ≤ s.d + 2 * pad then
    some ⟨s.b, outC, s.d + 2 * pad + 1 - ker⟩ else none

/-- nn.BatchNorm1d over the channel (second) axis. -/
def bn1dSh (c : ℕ) (s : Sh3) : Option Sh3 := if s.k = c then some s else none

/-- FeedForward at shape level: LayerNorm(dim) demands last axis dim; then
Linear(dim, hidden), GELU, dropout, Linear(hidden, out), dropout. -/
def ffwdSh (dim hidden out : ℕ) (s : Sh3) : Option Sh3 := do
  let s1 ← if s.d = dim then some s else none
  let s2 ← linearSh dim hidden s1
  linearSh hidden out s2

/-- Attention.forward with create_heads=True at shape level: the three
projections Linear(q_dim, heads * dim_head, bias=False), the rearrange into
heads, matmul of q with k (batch sizes must agree), softmax, contraction with
v (key and value token counts must agree), rearrange back, and to_out, which
is the identity exactly when heads = 1 and dim_head = q_dim and
Linear(inner, q_dim) otherwise (both leave the same shape since then
inner = q_dim). -/
def attnSelfSh (qdim heads dh : ℕ) (q k v : Sh3) : Option Sh3 := do
  let qq ← linearSh qdim (heads * dh) q
  let kk ← linearSh qdim (heads * dh) k
  let vv ← linearSh qdim (heads * dh) v
  let core ← if qq.b = kk.b ∧ kk.b = vv.b ∧ kk.k = vv.k then
      some (Sh3.mk qq.b qq.k (heads * dh)) else none
  if heads = 1 ∧ dh = qdim then pure core else linearSh (heads * dh) qdim core

/-- Transformer.cnn_block at shape level: dropout, Conv1d(in_chan, in_chan,
ker, padding=(ker - 1) / 2), BatchNorm1d(in_chan), ELU, MaxPool1d(2, 2). -/
def transCnnSh (in_chan ker : ℕ) (s : Sh3) : Option Sh3 := do
  let s1 ← conv1dSh in_chan in_chan ker ((ker - 1) / 2) s
  let s2 ← bn1dSh in_chan s1
  maxPool1dSh s2

/-- One HCT block at shape level: pooling, self-attention with residual,
fine-grained cnn with its (b, k) dense feature, feed-forward fusion added to
the fine branch, and the q/k/v projections into the inner dimension. -/
def hctSh (heads dh : ℕ) (cfg : HctCfg) (s : Sh3) : Option (Sh3 × Sh3 × Sh2) := do
  let xcg ← maxPool1dSh s
  let xat ← attnSelfSh cfg.dim heads dh xcg xcg xcg
  let xcg2 ← addSh xat xcg
  let xfg ← transCnnSh cfg.in_chan cfg.ker s
  let info := Sh2.mk xfg.b xfg.k
  let xff ← ffwdSh cfg.dim cfg.mlp cfg.dim xcg2
  let x2 ← addSh xff xfg
  let xq ← linearSh cfg.dim (heads * dh) x2
  pure (x2, xq, info)

/-- torch.cat along the token axis (dim=-2): the tensor list must be
nonempty, batch and feature axes must agree, token counts add. -/
def catTokensSh : List Sh3 → Option Sh3
  | [] => none
  | s :: rest =>
    rest.foldlM (fun acc t =>
      if t.b = acc.b ∧ t.d = acc.d then some ⟨acc.b, acc.k + t.k, acc.d⟩ else none) s

/-- CrossChannelTransformerEncoderLayer.forward at shape level: aggregate
keys and values of the others, the no-heads attention (rearrange demands the
inner dimension heads * dh everywhere; matmuls demand matching batches and
matching key/value token counts), to_out = Linear(inner, dim), the residual
add onto x, and FeedForward(dim, mlpSum, dim). -/
def crossSh (heads dh dim mlpSum : ℕ) (x xq : Sh3) (otherKs otherVs : List Sh3) :
    Option Sh3 := do
  let kagg ← catTokensSh otherKs
  let vagg ← catTokensSh otherVs
  let core ← if xq.d = heads * dh ∧ kagg.d = heads * dh ∧ vagg.d = heads * dh ∧
      xq.b = kagg.b ∧ kagg.b = vagg.b ∧ kagg.k = vagg.k then
      some (Sh3.mk xq.b xq.k (heads * dh)) else none
  let o ← linearSh (heads * dh) dim core
  let x1 ← addSh x o
  ffwdSh dim mlpSum dim x1

/-- One depth level of Transformer.forward at shape level: the HCT loop then
the cross-attention loop (both index channels_output by position; the key and
value pools of modality i aggregate every other modality's projection
shape). -/
def levelStepSh (heads dh mlpSum : ℕ) (lvl : List HctCfg) (chs : List Sh3) :
    Option (List Sh3 × List Sh2) := do
  let tups ← (List.range lvl.length).mapM fun i => do
    let cfg ← lvl[i]?
    let s ← chs[i]?
    hctSh heads dh cfg s
  let newChs ← (List.range lvl.length).mapM fun i => do
    let cfg ← lvl[i]?
    let t ← tups[i]?
    crossSh heads dh cfg.dim mlpSum t.1 t.2.1
      ((othersOf tups i).map fun u => u.2.1) ((othersOf tups i).map fun u => u.2.1)
  pure (newChs, tups.map fun t => t.2.2)

/-- The depth-level loop at shape level, accumulating dense feature shapes. -/
def transLevelsSh (heads dh mlpSum : ℕ) :
    List (List HctCfg) → List Sh3 → Option (List Sh3 × List (List Sh2))
  | [], chs => some (chs, [])
  | L :: rest, chs => do
    let s ← levelStepSh heads dh mlpSum L chs
    let r ← transLevelsSh heads dh mlpSum rest s.1
    pure (r.1, s.2 :: r.2)

/-- torch.cat along the feature axis for 2D tensors: nonempty list, matching
batches, feature sizes add. -/
def cat2Sh : List Sh2 → Option Sh2
  | [] => none
  | s :: rest =>
    rest.foldlM (fun acc t => if t.b = acc.b then some ⟨acc.b, acc.d + t.d⟩ else none) s

/-- FeedForward on 2D tensors: LayerNorm(dim) demands the feature size dim;
the hidden width constrains nothing further. -/
def ffwd2Sh (dim hidden out : ℕ) (s : Sh2) : Option Sh2 :=
  if s.d = dim ∧ 0 ≤ hidden then some ⟨s.b, out⟩ else none

/-- Transformer.forward at shape level: the depth levels, then per modality
the flatten view(b, -1), the concatenation of its per-level dense features,
the concatenation with the flattened tokens, the compression layer
FeedForward(output_size, emb, emb), and finally the concatenation of all
modality embeddings through FeedForward(sum emb, sum emb, out_dim). -/
def transForwardSh (m : MCDDesc) (chs : List Sh3) : Option Sh2 := do
  let r ← transLevelsSh m.heads m.dh m.mlpSum m.layers chs
  let embs ← (List.range r.1.length).mapM fun i => do
    let s ← r.1[i]?
    let lv ← r.2.mapM fun lvl => lvl[i]?
    let comb ← cat2Sh lv
    let total ← if comb.b = s.b then some (Sh2.mk s.b (s.k * s.d + comb.d)) else none
    let cp ← m.compress[i]?
    ffwd2Sh cp.1 cp.2 cp.2 total
  let allEmb ← cat2Sh embs
  ffwd2Sh m.embSum m.embSum m.outDim allEmb

/-- MultiChannelDeformer.forward at shape level: per modality the unsqueeze
to (b, 1, C, T), the cnn encoder, the rearrange to (b, K, C2 * T2), and the
in-place addition of the positional embedding (1, K, T), which broadcasts
only along axes of size one; then the transformer. -/
def mcdForwardSh (m : MCDDesc) (inputs : List Sh3) : Option Sh2 := do
  let toks ← (List.range inputs.length).mapM fun i => do
    let s ← inputs[i]?
    let enc ← m.fronts[i]?
    let s4 ← seq2dSh enc ⟨s.b, 1, s.k, s.d⟩
    let s3 := Sh3.mk s4.b s4.c (s4.h * s4.w)
    let pe ← m.posEmbs[i]?
    if (pe.1 = s3.k ∨ pe.1 = 1) ∧ (pe.2 = s3.d ∨ pe.2 = 1) then some s3 else none
  transForwardSh m toks

/-! ## C2: the invalid configurations are not rejected at construction -/

/-- Channel count zero (otherwise well formed). -/
def cfgChanZero : MCDCfg := ⟨[8], [0], [1], [1], [1], [1], 1, 1, 1, 1⟩

/-- Post-halving time length int(2 * 0.5 ^ 2) = 0. -/
def cfgHalveZero : MCDCfg := ⟨[2, 2], [1, 1], [1, 1], [1, 1], [1, 1], [1, 1], 2, 1, 1, 1⟩

/-- Odd temporal kernel of length 5 on time length 4 (kernel length
at least the time length). -/
def cfgKerGeTime : MCDCfg := ⟨[4, 4], [1, 1], [1, 1], [1, 1], [5, 5], [1, 1], 1, 1, 1, 1⟩

/-- C2 counterexample: at the concrete configuration with channel count 0,
construction succeeds (the source validates nothing at construction), and
the configuration error is first surfaced during a forward evaluation, where
the front-end convolution rejects the empty channel axis. -/
theorem C2_counterexample :
    cfgChanZero.num_chan = [0] ∧
      (mcdInit cfgChanZero).isSome = true ∧
      (mcdInit cfgChanZero).bind (fun m => mcdForwardSh m [⟨1, 0, 8⟩]) = none := by
  decide

/-- C2 (amended): none of the three configuration classes is rejected at
construction, because construction performs no hyperparameter validation:
channel count 0 and a post-halving time length of 0 construct successfully
and first fail during a forward evaluation (the front-end convolution and
the depth-level pooling respectively), while an odd temporal kernel of
length at least the time length constructs successfully and the forward
evaluation succeeds, surfacing no error at all. -/
theorem C2_construction_no_validation :
    ((mcdInit cfgChanZero).isSome = true ∧
      (mcdInit cfgChanZero).bind (fun m => mcdForwardSh m [⟨1, 0, 8⟩]) = none) ∧
      ((mcdInit cfgHalveZero).isSome = true ∧
        (mcdInit cfgHalveZero).bind
          (fun m => mcdForwardSh m [⟨1, 1, 2⟩, ⟨1, 1, 2⟩]) = none) ∧
      ((mcdInit cfgKerGeTime).isSome = true ∧
        (mcdInit cfgKerGeTime).bind
          (fun m => mcdForwardSh m [⟨1, 1, 4⟩, ⟨1, 1, 4⟩]) = some ⟨1, 1⟩) := by
  decide

/-! ## Helper lemmas for the shape-level forward theorem -/

theorem mapM_map_comp {α β γ : Type _} (g : α → β) (f : β → Option γ) :
    ∀ l : List α, (l.map g).mapM f = l.mapM fun a => f (g a)
  | [] => rfl
  | a :: t => by
    simp only [List.map_cons, List.mapM_cons, mapM_map_comp g f t]

theorem mapM_range_eq_some {β : Type _} :
    ∀ (n : ℕ) (g : ℕ → Option β) (out : List β), out.length = n →
      (∀ i, i < n → g i = out[i]?) → (List.range n).mapM g = some out
  | 0, g, out, hlen, _ => by
    cases out with
    | nil => rfl
    | cons b bs => simp at hlen
  | n + 1, g, out, hlen, h => by
    cases out with
    | nil => simp at hlen
    | cons b bs =>
      have h0 : g 0 = some b := by simpa using h 0 (Nat.succ_pos n)
      have hrec : (List.range n).mapM (fun i => g (i + 1)) = some bs :=
        mapM_range_eq_some n (fun i => g (i + 1)) bs (by simpa using hlen)
          (fun i hi => by simpa using h (i + 1) (Nat.succ_lt_succ hi))
      rw [List.range_succ_eq_map, List.mapM_cons, h0, mapM_map_comp Nat.succ g, hrec]
      rfl

theorem getElem?_zip_of_lt {α β : Type _} (l : List α) (r : List β) (i : ℕ)
    (h1 : i < l.length) (h2 : i < r.length) : (l.zip r)[i]? = some (l[i], r[i]) := by
  have hz : i < (l.zip r).length := by
    rw [List.length_zip]
    omega
  rw [List.getElem?_eq_getElem hz]
  exact congrArg some List.getElem_zip

theorem range_map_getD {α : Type _} (d : α) :
    ∀ l : List α, (List.range l.length).map (fun i => l.getD i d) = l
  | [] => rfl
  | a :: t => by
    rw [List.length_cons, List.range_succ_eq_map, List.map_cons, List.map_map]
    refine congrArg₂ List.cons rfl ?_
    have : ((fun i => (a :: t).getD i d) ∘ Nat.succ) = fun i => t.getD i d := rfl
    rw [this, range_map_getD d t]

theorem sum_range_const (n e : ℕ) : ((List.range n).map fun _ => e).sum = n * e := by
  induction n with
  | zero => simp
  | succ m ih =>
    rw [List.range_succ_eq_map, List.map_cons, List.map_map, List.sum_cons]
    have : ((fun _ : ℕ => e) ∘ Nat.succ) = fun _ : ℕ => e := rfl
    rw [this, ih]
    ring

theorem attnSelfSh_self (qdim heads dh : ℕ) (s : Sh3) (h : s.d = qdim) :
    attnSelfSh qdim heads dh s s s = some ⟨s.b, s.k, qdim⟩ := by
  by_cases hp : heads = 1 ∧ dh = qdim
  · obtain ⟨h1, h2⟩ := hp
    subst h1
    subst h2
    simp [attnSelfSh, linearSh, h]
  · simp [attnSelfSh, linearSh, h, hp]

theorem transCnnSh_same (inc ker b d : ℕ) (hker : ker % 2 = 1) (hd : 2 ≤ d) :
    transCnnSh inc ker ⟨b, inc, d⟩ = some ⟨b, inc, d / 2⟩ := by
  have hk1 : 1 ≤ ker := by omega
  have hle : ker ≤ d + 2 * ((ker - 1) / 2) := by omega
  have hout : d + 2 * ((ker - 1) / 2) + 1 - ker = d := by omega
  unfold transCnnSh conv1dSh bn1dSh maxPool1dSh
  rw [if_pos ⟨rfl, hk1, hle⟩]
  simp [hout, hd]

theorem ffwdSh_same (dim hidden b k : ℕ) :
    ffwdSh dim hidden dim ⟨b, k, dim⟩ = some ⟨b, k, dim⟩ := by
  unfold ffwdSh linearSh
  simp

theorem hctSh_eq (heads dh dim mlp K ker b d : ℕ) (hdim : d / 2 = dim) (hd : 2 ≤ d)
    (hker : ker % 2 = 1) :
    hctSh heads dh ⟨dim, mlp, K, ker⟩ ⟨b, K, d⟩ =
      some (⟨b, K, dim⟩, ⟨b, K, heads * dh⟩, ⟨b, K⟩) := by
  unfold hctSh
  rw [show maxPool1dSh ⟨b, K, d⟩ = some ⟨b, K, dim⟩ by
    unfold maxPool1dSh
    rw [if_pos hd, hdim]]
  simp only [Option.bind_eq_bind, Option.some_bind]
  rw [attnSelfSh_self dim heads dh ⟨b, K, dim⟩ rfl]
  simp only [Option.some_bind]
  rw [show addSh ⟨b, K, dim⟩ ⟨b, K, dim⟩ = some ⟨b, K, dim⟩ by
    unfold addSh
    rw [if_pos rfl]]
  simp only [Option.some_bind]
  rw [transCnnSh_same K ker b d hker hd]
  simp only [Option.some_bind]
  rw [hdim, ffwdSh_same dim mlp b K]
  simp only [Option.some_bind]
  rw [show addSh ⟨b, K, dim⟩ ⟨b, K, dim⟩ = some ⟨b, K, dim⟩ by
    unfold addSh
    rw [if_pos rfl]]
  simp only [Option.some_bind]
  unfold linearSh
  rw [if_pos rfl]
  rfl

theorem catTokensSh_some {bb dd : ℕ} :
    ∀ (l : List Sh3) (acc : Sh3), acc.b = bb → acc.d = dd →
      (∀ s ∈ l, s.b = bb ∧ s.d = dd) →
      ∃ kk, (l.foldlM (fun acc t =>
        if t.b = acc.b ∧ t.d = acc.d then some ⟨acc.b, acc.k + t.k, acc.d⟩ else none) acc) =
          some ⟨bb, kk, dd⟩
  | [], acc, hb, hd, _ => by
    refine ⟨acc.k, ?_⟩
    subst hb
    subst hd
    rfl
  | s :: rest, acc, hb, hd, h => by
    have hs := h s (List.mem_cons_self s rest)
    have hstep : (if s.b = acc.b ∧ s.d = acc.d then
        some (⟨acc.b, acc.k + s.k, acc.d⟩ : Sh3) else none) =
        some ⟨acc.b, acc.k + s.k, acc.d⟩ := by
      rw [if_pos ⟨by rw [hs.1, hb], by rw [hs.2, hd]⟩]
    rw [List.foldlM_cons, hstep]
    simp only [Option.bind_eq_bind, Option.some_bind]
    exact catTokensSh_some rest ⟨acc.b, acc.k + s.k, acc.d⟩ hb hd
      fun t ht => h t (List.mem_cons_of_mem _ ht)

theorem catTokensSh_of_nonempty {bb dd : ℕ} (l : List Sh3) (hne : l ≠ [])
    (h : ∀ s ∈ l, s.b = bb ∧ s.d = dd) :
    ∃ kk, catTokensSh l = some ⟨bb, kk, dd⟩ := by
  cases l with
  | nil => exact absurd rfl hne
  | cons s rest =>
    have hs := h s (List.mem_cons_self s rest)
    simp only [catTokensSh]
    exact catTokensSh_some rest s hs.1 hs.2 fun t ht => h t (List.mem_cons_of_mem _ ht)

theorem cat2Sh_foldl {bb : ℕ} :
    ∀ (l : List Sh2) (acc : Sh2), acc.b = bb → (∀ s ∈ l, s.b = bb) →
      (l.foldlM (fun acc t => if t.b = acc.b then some ⟨acc.b, acc.d + t.d⟩ else none) acc) =
        some ⟨bb, acc.d + (l.map Sh2.d).sum⟩
  | [], acc, hb, _ => by
    subst hb
    simp
  | s :: rest, acc, hb, h => by
    have hs := h s (List.mem_cons_self s rest)
    rw [List.foldlM_cons, if_pos (by rw [hs, hb])]
    simp only [Option.bind_eq_bind, Option.some_bind]
    rw [cat2Sh_foldl rest ⟨acc.b, acc.d + s.d⟩ hb fun t ht => h t (List.mem_cons_of_mem _ ht)]
    simp only [List.map_cons, List.sum_cons]
    refine congrArg some ?_
    refine congrArg (Sh2.mk bb) ?_
    omega

theorem cat2Sh_of_nonempty {bb : ℕ} (l : List Sh2) (hne : l ≠ [])
    (h : ∀ s ∈ l, s.b = bb) :
    cat2Sh l = some ⟨bb, (l.map Sh2.d).sum⟩ := by
  cases l with
  | nil => exact absurd rfl hne
  | cons s rest =>
    have hs := h s (List.mem_cons_self s rest)
    simp only [cat2Sh]
    rw [cat2Sh_foldl rest s hs fun t ht => h t (List.mem_cons_of_mem _ ht)]
    simp

/-- The front-end block turns (b, 1, C, T) into (b, K, 1, T) for every
positive channel count, positive time length and odd temporal kernel. -/
theorem front_shape (b C T K tk : ℕ) (hC : 1 ≤ C) (hT : 1 ≤ T) (htk : tk % 2 = 1) :
    seq2dSh (mcdCnnBlock K tk C) ⟨b, 1, C, T⟩ = some ⟨b, K, 1, T⟩ := by
  have htk1 : 1 ≤ tk := by omega
  have hwge : tk ≤ T + 2 * ((tk - 1) / 2) := by omega
  have hconv1 : layer2dSh (Layer2d.convC 1 K 1 tk 0 ((tk - 1) / 2)) ⟨b, 1, C, T⟩ =
      some ⟨b, K, C, T⟩ := by
    show (if (1 : ℕ) = 1 ∧ 1 ≤ 1 ∧ 1 ≤ tk ∧ 1 ≤ C + 2 * 0 ∧ tk ≤ T + 2 * ((tk - 1) / 2) then
        some (⟨b, K, C + 2 * 0 + 1 - 1, T + 2 * ((tk - 1) / 2) + 1 - tk⟩ : Sh4) else none) =
      some ⟨b, K, C, T⟩
    rw [if_pos (by refine ⟨rfl, ?_, ?_, ?_, ?_⟩ <;> omega)]
    refine congrArg some ?_
    congr 1 <;> omega
  by_cases hC2 : 1 < C
  · have hblock : mcdCnnBlock K tk C =
        [Layer2d.convC 1 K 1 tk 0 ((tk - 1) / 2), Layer2d.convC K K C 1 0 0,
         Layer2d.bn2d K, Layer2d.elu2d] := by
      unfold mcdCnnBlock
      rw [if_pos hC2]
    have hconv2 : layer2dSh (Layer2d.convC K K C 1 0 0) ⟨b, K, C, T⟩ =
        some ⟨b, K, 1, T⟩ := by
      show (if K = K ∧ 1 ≤ C ∧ 1 ≤ 1 ∧ C ≤ C + 2 * 0 ∧ 1 ≤ T + 2 * 0 then
          some (⟨b, K, C + 2 * 0 + 1 - C, T + 2 * 0 + 1 - 1⟩ : Sh4) else none) =
        some ⟨b, K, 1, T⟩
      rw [if_pos (by refine ⟨rfl, ?_, ?_, ?_, ?_⟩ <;> omega)]
      refine congrArg some ?_
      congr 1 <;> omega
    rw [hblock]
    simp only [seq2dSh]
    rw [hconv1]
    simp only [Option.some_bind]
    rw [hconv2]
    simp only [Option.some_bind, layer2dSh]
    simp
  · have hC1 : C = 1 := by omega
    subst hC1
    have hblock : mcdCnnBlock K tk 1 =
        [Layer2d.convC 1 K 1 tk 0 ((tk - 1) / 2), Layer2d.ident,
         Layer2d.bn2d K, Layer2d.elu2d] := by
      unfold mcdCnnBlock
      rw [if_neg (by omega)]
    rw [hblock]
    simp only [seq2dSh]
    rw [hconv1]
    simp only [Option.some_bind, layer2dSh]
    simp

theorem bindSomeEq {α β : Type _} (x : α) (f : α → Option β) :
    (Bind.bind (some x) f) = f x := rfl

theorem crossSh_eq (heads dh dim mlpSum b k : ℕ) (pool : List Sh3) (hne : pool ≠ [])
    (hpool : ∀ s ∈ pool, s.b = b ∧ s.d = heads * dh) :
    crossSh heads dh dim mlpSum ⟨b, k, dim⟩ ⟨b, k, heads * dh⟩ pool pool =
      some ⟨b, k, dim⟩ := by
  obtain ⟨kk, hk⟩ := catTokensSh_of_nonempty pool hne hpool
  unfold crossSh
  simp only [hk, bindSomeEq]
  simp [linearSh, addSh, ffwdSh_same dim mlpSum b k]

theorem levelStepSh_eq (heads dh mlpSum b M : ℕ) (hM : 2 ≤ M)
    (dim mlp K ker d : ℕ → ℕ)
    (hd : ∀ k, k < M → d k / 2 = dim k ∧ 2 ≤ d k ∧ ker k % 2 = 1) :
    levelStepSh heads dh mlpSum
        ((List.range M).map fun k => ⟨dim k, mlp k, K k, ker k⟩)
        ((List.range M).map fun k => ⟨b, K k, d k⟩) =
      some ((List.range M).map fun k => ⟨b, K k, dim k⟩,
        (List.range M).map fun k => ⟨b, K k⟩) := by
  have hL : ((List.range M).map fun k => (⟨dim k, mlp k, K k, ker k⟩ : HctCfg)).length = M := by
    simp
  have htups : (List.range M).mapM (fun i => do
      let cfg ← ((List.range M).map fun k => (⟨dim k, mlp k, K k, ker k⟩ : HctCfg))[i]?
      let s ← ((List.range M).map fun k => (⟨b, K k, d k⟩ : Sh3))[i]?
      hctSh heads dh cfg s) =
      some ((List.range M).map fun k =>
        ((⟨b, K k, dim k⟩ : Sh3), (⟨b, K k, heads * dh⟩ : Sh3), (⟨b, K k⟩ : Sh2))) := by
    refine mapM_range_eq_some M _ _ (by simp) ?_
    intro i hi
    obtain ⟨h1, h2, h3⟩ := hd i hi
    simp only [List.getElem?_map, List.getElem?_range hi, Option.map_some', Option.some_bind,
      Option.bind_eq_bind]
    rw [hctSh_eq heads dh (dim i) (mlp i) (K i) (ker i) b (d i) h1 h2 h3]
  have htl : ((List.range M).map fun k =>
      ((⟨b, K k, dim k⟩ : Sh3), (⟨b, K k, heads * dh⟩ : Sh3), (⟨b, K k⟩ : Sh2))).length = M := by
    simp
  have hcross : (List.range M).mapM (fun i => do
      let cfg ← ((List.range M).map fun k => (⟨dim k, mlp k, K k, ker k⟩ : HctCfg))[i]?
      let t ← ((List.range M).map fun k =>
        ((⟨b, K k, dim k⟩ : Sh3), (⟨b, K k, heads * dh⟩ : Sh3), (⟨b, K k⟩ : Sh2)))[i]?
      crossSh heads dh cfg.dim mlpSum t.1 t.2.1
        ((othersOf ((List.range M).map fun k =>
            ((⟨b, K k, dim k⟩ : Sh3), (⟨b, K k, heads * dh⟩ : Sh3), (⟨b, K k⟩ : Sh2))) i).map
          fun u => u.2.1)
        ((othersOf ((List.range M).map fun k =>
            ((⟨b, K k, dim k⟩ : Sh3), (⟨b, K k, heads * dh⟩ : Sh3), (⟨b, K k⟩ : Sh2))) i).map
          fun u => u.2.1)) =
      some ((List.range M).map fun k => (⟨b, K k, dim k⟩ : Sh3)) := by
    refine mapM_range_eq_some M _ _ (by simp) ?_
    intro i hi
    have hne : ((((List.range M).map fun k =>
        ((⟨b, K k, dim k⟩ : Sh3), (⟨b, K k, heads * dh⟩ : Sh3), (⟨b, K k⟩ : Sh2))).eraseIdx i).map
          fun u => u.2.1) ≠ [] := by
      refine List.ne_nil_of_length_pos ?_
      rw [List.length_map, List.length_eraseIdx_of_lt (by rw [htl]; exact hi), htl]
      omega
    have hpool : ∀ s ∈ ((((List.range M).map fun k =>
        ((⟨b, K k, dim k⟩ : Sh3), (⟨b, K k, heads * dh⟩ : Sh3), (⟨b, K k⟩ : Sh2))).eraseIdx i).map
          fun u => u.2.1), s.b = b ∧ s.d = heads * dh := by
      intro s hs
      obtain ⟨u, hu, rfl⟩ := List.mem_map.1 hs
      have hu2 := List.eraseIdx_subset _ _ hu
      obtain ⟨j, _, rfl⟩ := List.mem_map.1 hu2
      exact ⟨rfl, rfl⟩
    simp only [List.getElem?_map, List.getElem?_range hi, Option.map_some', bindSomeEq]
    rw [othersOf_eq_eraseIdx]
    exact crossSh_eq heads dh (dim i) mlpSum b (K i) _ hne hpool
  unfold levelStepSh
  rw [hL]
  rw [htups]
  simp only [bindSomeEq]
  rw [hcross]
  simp only [bindSomeEq]
  refine congrArg some ?_
  refine congrArg _ ?_
  rw [List.map_map]
  rfl

theorem transLevelsSh_run (heads dh mlpSum b M : ℕ) (hM : 2 ≤ M)
    (mlp K ker : ℕ → ℕ) (hker : ∀ k, k < M → ker k % 2 = 1) :
    ∀ (r : ℕ) (dcur : ℕ → ℕ), (∀ k, k < M → 2 ^ r ≤ dcur k) →
      transLevelsSh heads dh mlpSum
          ((List.range r).map fun l => (List.range M).map fun k =>
            (⟨dcur k / 2 ^ (l + 1), mlp k, K k, ker k⟩ : HctCfg))
          ((List.range M).map fun k => (⟨b, K k, dcur k⟩ : Sh3)) =
        some ((List.range M).map fun k => (⟨b, K k, dcur k / 2 ^ r⟩ : Sh3),
          (List.range r).map fun _ => (List.range M).map fun k => (⟨b, K k⟩ : Sh2))
  | 0, dcur, hdc => by
    simp only [List.range_zero, List.map_nil, transLevelsSh]
    refine congrArg some ?_
    refine congrArg₂ Prod.mk ?_ rfl
    refine List.map_congr_left ?_
    intro k _
    rw [pow_zero, Nat.div_one]
  | r + 1, dcur, hdc => by
    have h2 : ∀ k, k < M → 2 ≤ dcur k := by
      intro k hk
      have h1 := hdc k hk
      have h2 : (2 : ℕ) ^ 1 ≤ 2 ^ (r + 1) := Nat.pow_le_pow_right (by omega) (by omega)
      simp only [pow_one] at h2
      omega
    have hstep := levelStepSh_eq heads dh mlpSum b M hM (fun k => dcur k / 2)
      mlp K ker dcur (fun k hk => ⟨rfl, h2 k hk, hker k hk⟩)
    have hdc2 : ∀ k, k < M → 2 ^ r ≤ dcur k / 2 := by
      intro k hk
      have h1 := hdc k hk
      rw [Nat.le_div_iff_mul_le (by omega)]
      calc 2 ^ r * 2 = 2 ^ (r + 1) := (pow_succ 2 r).symm
        _ ≤ dcur k := h1
    have hrec := transLevelsSh_run heads dh mlpSum b M hM mlp K ker hker r
      (fun k => dcur k / 2) hdc2
    rw [List.range_succ_eq_map, List.map_cons]
    simp only [transLevelsSh]
    have hhead : ((List.range M).map fun k =>
        (⟨dcur k / 2 ^ (0 + 1), mlp k, K k, ker k⟩ : HctCfg)) =
        ((List.range M).map fun k => (⟨dcur k / 2, mlp k, K k, ker k⟩ : HctCfg)) := by
      refine List.map_congr_left ?_
      intro k _
      norm_num
    have htail : (((List.range r).map Nat.succ).map fun l => (List.range M).map fun k =>
        (⟨dcur k / 2 ^ (l + 1), mlp k, K k, ker k⟩ : HctCfg)) =
        ((List.range r).map fun l => (List.range M).map fun k =>
          (⟨dcur k / 2 / 2 ^ (l + 1), mlp k, K k, ker k⟩ : HctCfg)) := by
      rw [List.map_map]
      refine List.map_congr_left ?_
      intro l _
      simp only [Function.comp_apply]
      refine List.map_congr_left ?_
      intro k _
      have he : dcur k / 2 ^ (Nat.succ l + 1) = dcur k / 2 / 2 ^ (l + 1) := by
        rw [Nat.div_div_eq_div_mul, ← pow_succ']
      rw [he]
    rw [hhead, htail, hstep]
    simp only [bindSomeEq]
    rw [hrec]
    simp only [bindSomeEq]
    refine congrArg some ?_
    refine congrArg₂ Prod.mk ?_ ?_
    · refine List.map_congr_left ?_
      intro k _
      have he : dcur k / 2 / 2 ^ r = dcur k / 2 ^ (r + 1) := by
        rw [Nat.div_div_eq_div_mul, ← pow_succ']
      rw [he]
    · rw [List.map_cons, List.map_map]
      rfl

theorem transInitLayers_eq (mlps chans kers : List ℕ) :
    ∀ (depth : ℕ) (dims : List ℕ),
      dims.length ≤ mlps.length → dims.length ≤ chans.length → dims.length ≤ kers.length →
      transInitLayers dims depth mlps chans kers =
        some ((List.range depth).map fun l =>
          (List.range dims.length).map fun k =>
            (⟨dims.getD k 0 / 2 ^ (l + 1), mlps.getD k 0, chans.getD k 0,
              kers.getD k 0⟩ : HctCfg))
  | 0, dims, _, _, _ => by
    simp [transInitLayers]
  | depth + 1, dims, h1, h2, h3 => by
    simp only [transInitLayers]
    have hlvl : (List.range (dims.map fun t => t / 2).length).mapM (fun k => do
        let dim ← (dims.map fun t => t / 2)[k]?
        let mlp ← mlps[k]?
        let ker ← kers[k]?
        let ch ← chans[k]?
        pure (HctCfg.mk dim mlp ch ker)) =
        some ((List.range dims.length).map fun k =>
          (⟨dims.getD k 0 / 2, mlps.getD k 0, chans.getD k 0, kers.getD k 0⟩ : HctCfg)) := by
      rw [List.length_map]
      refine mapM_range_eq_some _ _ _ (by simp) ?_
      intro i hi
      have hd : (dims.map fun t => t / 2)[i]? = some (dims.getD i 0 / 2) := by
        rw [List.getElem?_map, List.getElem?_eq_getElem hi, Option.map_some',
          List.getD_eq_getElem dims 0 hi]
      have hm : mlps[i]? = some (mlps.getD i 0) := by
        rw [List.getElem?_eq_getElem (lt_of_lt_of_le hi h1),
          List.getD_eq_getElem mlps 0 (lt_of_lt_of_le hi h1)]
      have hk : kers[i]? = some (kers.getD i 0) := by
        rw [List.getElem?_eq_getElem (lt_of_lt_of_le hi h3),
          List.getD_eq_getElem kers 0 (lt_of_lt_of_le hi h3)]
      have hc : chans[i]? = some (chans.getD i 0) := by
        rw [List.getElem?_eq_getElem (lt_of_lt_of_le hi h2),
          List.getD_eq_getElem chans 0 (lt_of_lt_of_le hi h2)]
      rw [hd, hm, hk, hc]
      simp only [bindSomeEq]
      rw [List.getElem?_map, List.getElem?_range hi]
      rfl
    rw [hlvl]
    simp only [bindSomeEq]
    rw [transInitLayers_eq mlps chans kers depth (dims.map fun t => t / 2)
      (by simpa) (by simpa) (by simpa)]
    simp only [bindSomeEq]
    refine congrArg some ?_
    rw [List.range_succ_eq_map, List.map_cons]
    refine congrArg₂ List.cons rfl ?_
    rw [List.map_map, List.length_map]
    refine List.map_congr_left ?_
    intro l _
    simp only [Function.comp_apply]
    refine List.map_congr_left ?_
    intro k hk
    have hklt : k < dims.length := List.mem_range.1 hk
    have hgd : (dims.map fun t => t / 2).getD k 0 = dims.getD k 0 / 2 := by
      have hkm : k < (dims.map fun t => t / 2).length := by simpa using hklt
      rw [List.getD_eq_getElem _ 0 hkm, List.getElem_map, List.getD_eq_getElem dims 0 hklt]
    rw [hgd]
    have he : dims.getD k 0 / 2 / 2 ^ (l + 1) = dims.getD k 0 / 2 ^ (Nat.succ l + 1) := by
      rw [Nat.div_div_eq_div_mul, ← pow_succ']
    rw [he]

/-- Validity of a configuration, following the spec: at least two modalities
(cross-modal fusion concatenates the other modalities, and torch.cat rejects
an empty tensor list), parallel configuration lists of one length, at least
one depth level, positive head counts, channel counts at least 1, kernel
counts at least 1, odd temporal kernels (the spec's requirement that padding
preserve the temporal dimension) shorter than the time length, and a positive
post-halving time length (2 ^ depth at most the time length). -/
def validCfg (c : MCDCfg) : Prop :=
  2 ≤ c.num_chan.length ∧
  c.num_time.length = c.num_chan.length ∧
  c.mlp_dim.length = c.num_chan.length ∧
  c.num_kernel.length = c.num_chan.length ∧
  c.temporal_kernel.length = c.num_chan.length ∧
  c.emb_dim.length = c.num_chan.length ∧
  1 ≤ c.depth ∧ 1 ≤ c.heads ∧ 1 ≤ c.dim_head ∧
  (∀ C ∈ c.num_chan, 1 ≤ C) ∧
  (∀ K ∈ c.num_kernel, 1 ≤ K) ∧
  (∀ p ∈ c.temporal_kernel.zip c.num_time, p.1 % 2 = 1 ∧ p.1 < p.2) ∧
  (∀ T ∈ c.num_time, 2 ^ c.depth ≤ T)

/-- C3: for every valid configuration and every batch size b at least 1,
construction succeeds and forward applied to the per-modality input shapes
(b, channels_i, time_i) returns exactly the shape (b, out_dim). -/
theorem C3_forward_shape (c : MCDCfg) (hc : validCfg c) (b : ℕ) (hb : 1 ≤ b) :
    ∃ m, mcdInit c = some m ∧
      mcdForwardSh m ((c.num_chan.zip c.num_time).map fun p => Sh3.mk b p.1 p.2) =
        some ⟨b, c.out_dim⟩ := by
  obtain ⟨hM2, hT, hmlp, hK, htk, hemb, hdep, hheads, hdh, hCpos, hKpos, htkodd, hTpos⟩ := hc
  -- pointwise facts about the configuration lists
  have hCget : ∀ i, i < c.num_chan.length → 1 ≤ c.num_chan.getD i 0 := by
    intro i hi
    refine hCpos _ ?_
    rw [List.getD_eq_getElem _ 0 hi]
    exact List.getElem_mem _
  have hKget : ∀ i, i < c.num_chan.length → 1 ≤ c.num_kernel.getD i 0 := by
    intro i hi
    refine hKpos _ ?_
    rw [List.getD_eq_getElem _ 0 (by omega : i < c.num_kernel.length)]
    exact List.getElem_mem _
  have hTget : ∀ i, i < c.num_chan.length → 2 ^ c.depth ≤ c.num_time.getD i 0 := by
    intro i hi
    refine hTpos _ ?_
    rw [List.getD_eq_getElem _ 0 (by omega : i < c.num_time.length)]
    exact List.getElem_mem _
  have hT1 : ∀ i, i < c.num_chan.length → 1 ≤ c.num_time.getD i 0 := by
    intro i hi
    have h1 := hTget i hi
    have h2 : 1 ≤ 2 ^ c.depth := Nat.one_le_two_pow
    omega
  have hker : ∀ i, i < c.num_chan.length → c.temporal_kernel.getD i 0 % 2 = 1 := by
    intro i hi
    have hzi : i < (c.temporal_kernel.zip c.num_time).length := by
      rw [List.length_zip]
      omega
    have hmem := List.getElem_mem hzi
    rw [List.getElem_zip] at hmem
    have := (htkodd _ hmem).1
    rwa [← List.getD_eq_getElem c.temporal_kernel 0 (by omega)] at this
  -- construction
  have hinit : mcdInit c = some ⟨
      ((c.num_chan.zip c.num_kernel).zip c.temporal_kernel).map fun p =>
        mcdCnnBlock p.1.2 p.2 p.1.1,
      (c.num_time.zip c.num_kernel).map fun p => (p.2, p.1),
      c.heads, c.dim_head,
      (List.range c.depth).map fun l =>
        (List.range c.num_time.length).map fun k =>
          ⟨c.num_time.getD k 0 / 2 ^ (l + 1), c.mlp_dim.getD k 0,
           c.num_kernel.getD k 0, c.temporal_kernel.getD k 0⟩,
      c.mlp_dim.sum,
      (get_modality_output_sizes c.num_time c.depth c.num_kernel).zip c.emb_dim,
      c.emb_dim.sum, c.out_dim⟩ := by
    unfold mcdInit
    rw [transInitLayers_eq c.mlp_dim c.num_kernel c.temporal_kernel c.depth c.num_time
      (by omega) (by omega) (by omega)]
    simp only [bindSomeEq]
    rfl
  refine ⟨_, hinit, ?_⟩
  -- the front-end loop
  have hinlen : ((c.num_chan.zip c.num_time).map fun p => Sh3.mk b p.1 p.2).length =
      c.num_chan.length := by
    rw [List.length_map, List.length_zip]
    omega
  unfold mcdForwardSh
  rw [hinlen]
  have htoks : (List.range c.num_chan.length).mapM (fun i => do
      let s ← (((c.num_chan.zip c.num_time).map fun p => Sh3.mk b p.1 p.2))[i]?
      let enc ← (((c.num_chan.zip c.num_kernel).zip c.temporal_kernel).map fun p =>
        mcdCnnBlock p.1.2 p.2 p.1.1)[i]?
      let s4 ← seq2dSh enc ⟨s.b, 1, s.k, s.d⟩
      let s3 := Sh3.mk s4.b s4.c (s4.h * s4.w)
      let pe ← ((c.num_time.zip c.num_kernel).map fun p => (p.2, p.1))[i]?
      if (pe.1 = s3.k ∨ pe.1 = 1) ∧ (pe.2 = s3.d ∨ pe.2 = 1) then some s3 else none) =
      some ((List.range c.num_chan.length).map fun i =>
        Sh3.mk b (c.num_kernel.getD i 0) (c.num_time.getD i 0)) := by
    refine mapM_range_eq_some _ _ _ (by simp) ?_
    intro i hi
    have hil : (((c.num_chan.zip c.num_time).map fun p => Sh3.mk b p.1 p.2))[i]? =
        some (Sh3.mk b (c.num_chan.getD i 0) (c.num_time.getD i 0)) := by
      rw [List.getElem?_map, getElem?_zip_of_lt _ _ i hi (by omega), Option.map_some']
      rw [← List.getD_eq_getElem c.num_chan 0 hi,
        ← List.getD_eq_getElem c.num_time 0 (by omega)]
    have hfr : (((c.num_chan.zip c.num_kernel).zip c.temporal_kernel).map fun p =>
        mcdCnnBlock p.1.2 p.2 p.1.1)[i]? =
        some (mcdCnnBlock (c.num_kernel.getD i 0) (c.temporal_kernel.getD i 0)
          (c.num_chan.getD i 0)) := by
      rw [List.getElem?_map, getElem?_zip_of_lt _ _ i (by rw [List.length_zip]; omega)
        (by omega), Option.map_some']
      rw [List.getElem_zip]
      rw [← List.getD_eq_getElem c.num_chan 0 hi,
        ← List.getD_eq_getElem c.num_kernel 0 (by omega),
        ← List.getD_eq_getElem c.temporal_kernel 0 (by omega)]
    have hpe : (((c.num_time.zip c.num_kernel).map fun p => (p.2, p.1)))[i]? =
        some (c.num_kernel.getD i 0, c.num_time.getD i 0) := by
      rw [List.getElem?_map, getElem?_zip_of_lt _ _ i (by omega) (by omega), Option.map_some']
      rw [← List.getD_eq_getElem c.num_time 0 (by omega),
        ← List.getD_eq_getElem c.num_kernel 0 (by omega)]
    rw [hil, hfr, hpe]
    simp only [bindSomeEq]
    rw [front_shape b (c.num_chan.getD i 0) (c.num_time.getD i 0) (c.num_kernel.getD i 0)
      (c.temporal_kernel.getD i 0) (hCget i hi) (hT1 i hi) (hker i hi)]
    simp only [bindSomeEq]
    show (if ((True ∨ c.num_kernel.getD i 0 = 1) ∧
        (c.num_time.getD i 0 = 1 * c.num_time.getD i 0 ∨ c.num_time.getD i 0 = 1)) then
        some (Sh3.mk b (c.num_kernel.getD i 0) (1 * c.num_time.getD i 0)) else none) =
      ((List.range c.num_chan.length).map fun k =>
        Sh3.mk b (c.num_kernel.getD k 0) (c.num_time.getD k 0))[i]?
    rw [if_pos ⟨Or.inl trivial, Or.inl (Nat.one_mul _).symm⟩]
    rw [List.getElem?_map, List.getElem?_range hi, Option.map_some', Nat.one_mul]
  rw [htoks]
  simp only [bindSomeEq]
  -- the transformer
  unfold transForwardSh
  rw [show c.num_time.length = c.num_chan.length from hT]
  rw [transLevelsSh_run c.heads c.dim_head c.mlp_dim.sum b c.num_chan.length hM2
    (fun k => c.mlp_dim.getD k 0) (fun k => c.num_kernel.getD k 0)
    (fun k => c.temporal_kernel.getD k 0) hker c.depth
    (fun k => c.num_time.getD k 0) hTget]
  simp only [bindSomeEq]
  have hembs : (List.range ((List.range c.num_chan.length).map fun k =>
      Sh3.mk b (c.num_kernel.getD k 0) (c.num_time.getD k 0 / 2 ^ c.depth)).length).mapM
      (fun i => do
        let s ← ((List.range c.num_chan.length).map fun k =>
          Sh3.mk b (c.num_kernel.getD k 0) (c.num_time.getD k 0 / 2 ^ c.depth))[i]?
        let lv ← ((List.range c.depth).map fun _ =>
          (List.range c.num_chan.length).map fun k =>
            Sh2.mk b (c.num_kernel.getD k 0)).mapM fun lvl => lvl[i]?
        let comb ← cat2Sh lv
        if comb.b = s.b then do
          let cp ← ((get_modality_output_sizes c.num_time c.depth c.num_kernel).zip
            c.emb_dim)[i]?
          ffwd2Sh cp.1 cp.2 cp.2 ⟨s.b, s.k * s.d + comb.d⟩
        else do
          let y ← (none : Option Sh2)
          let cp ← ((get_modality_output_sizes c.num_time c.depth c.num_kernel).zip
            c.emb_dim)[i]?
          ffwd2Sh cp.1 cp.2 cp.2 y) =
      some ((List.range c.num_chan.length).map fun i =>
        Sh2.mk b (c.emb_dim.getD i 0)) := by
    rw [List.length_map, List.length_range]
    refine mapM_range_eq_some _ _ _ (by simp) ?_
    intro i hi
    have hs : ((List.range c.num_chan.length).map fun k =>
        Sh3.mk b (c.num_kernel.getD k 0) (c.num_time.getD k 0 / 2 ^ c.depth))[i]? =
        some (Sh3.mk b (c.num_kernel.getD i 0) (c.num_time.getD i 0 / 2 ^ c.depth)) := by
      rw [List.getElem?_map, List.getElem?_range hi, Option.map_some']
    have hlv : ((List.range c.depth).map fun _ =>
        (List.range c.num_chan.length).map fun k =>
          Sh2.mk b (c.num_kernel.getD k 0)).mapM (fun lvl => lvl[i]?) =
        some ((List.range c.depth).map fun _ => Sh2.mk b (c.num_kernel.getD i 0)) := by
      rw [mapM_map_comp]
      refine mapM_range_eq_some _ _ _ (by simp) ?_
      intro l hl
      rw [List.getElem?_map, List.getElem?_range hi, Option.map_some']
      rw [List.getElem?_map, List.getElem?_range hl, Option.map_some']
    have hcomb : cat2Sh ((List.range c.depth).map fun _ =>
        Sh2.mk b (c.num_kernel.getD i 0)) =
        some ⟨b, c.depth * c.num_kernel.getD i 0⟩ := by
      rw [cat2Sh_of_nonempty _ (by
          refine List.ne_nil_of_length_pos ?_
          rw [List.length_map, List.length_range]
          omega)
        (by
          intro s hs2
          obtain ⟨l, _, rfl⟩ := List.mem_map.1 hs2
          rfl)]
      rw [List.map_map]
      refine congrArg some (congrArg _ ?_)
      exact sum_range_const c.depth (c.num_kernel.getD i 0)
    have hcp : (((get_modality_output_sizes c.num_time c.depth c.num_kernel).zip
        c.emb_dim))[i]? =
        some (modalityOutputSize (c.num_time.getD i 0) c.depth (c.num_kernel.getD i 0),
          c.emb_dim.getD i 0) := by
      have hgl : i < (get_modality_output_sizes c.num_time c.depth c.num_kernel).length := by
        unfold get_modality_output_sizes
        rw [List.length_map, List.length_zip]
        omega
      rw [getElem?_zip_of_lt _ _ i hgl (by omega)]
      refine congrArg some (congrArg₂ Prod.mk ?_ ?_)
      · unfold get_modality_output_sizes
        rw [List.getElem_map, List.getElem_zip]
        rw [← List.getD_eq_getElem c.num_time 0 (by omega),
          ← List.getD_eq_getElem c.num_kernel 0 (by omega)]
      · rw [← List.getD_eq_getElem c.emb_dim 0 (by omega)]
    rw [hs]
    simp only [bindSomeEq]
    rw [hlv]
    simp only [bindSomeEq]
    rw [hcomb]
    simp only [bindSomeEq]
    rw [if_pos trivial]
    rw [hcp]
    simp only [bindSomeEq]
    unfold ffwd2Sh
    rw [if_pos ⟨by unfold modalityOutputSize; ring, Nat.zero_le _⟩]
    rw [List.getElem?_map, List.getElem?_range hi, Option.map_some']
  rw [hembs]
  simp only [bindSomeEq]
  have hall : cat2Sh ((List.range c.num_chan.length).map fun i =>
      Sh2.mk b (c.emb_dim.getD i 0)) = some ⟨b, c.emb_dim.sum⟩ := by
    rw [cat2Sh_of_nonempty _ (by
        refine List.ne_nil_of_length_pos ?_
        rw [List.length_map, List.length_range]
        omega)
      (by
        intro s hs2
        obtain ⟨l, _, rfl⟩ := List.mem_map.1 hs2
        rfl)]
    rw [List.map_map]
    refine congrArg some (congrArg _ ?_)
    show ((List.range c.num_chan.length).map
      (Sh2.d ∘ fun i => Sh2.mk b (c.emb_dim.getD i 0))).sum = c.emb_dim.sum
    have : (Sh2.d ∘ fun i => Sh2.mk b (c.emb_dim.getD i 0)) =
        fun i => c.emb_dim.getD i 0 := rfl
    rw [this, show c.num_chan.length = c.emb_dim.length by omega, range_map_getD 0 c.emb_dim]
  rw [hall]
  simp only [bindSomeEq]
  unfold ffwd2Sh
  rw [if_pos ⟨rfl, Nat.zero_le _⟩]

/-- Concrete valid two-modality configuration used by the C3 witness. -/
def cfgW : MCDCfg := ⟨[4, 4], [1, 1], [1, 1], [1, 1], [1, 1], [1, 1], 1, 1, 1, 1⟩

/-- Witness for C3 at a concrete valid configuration and batch size 1. -/
theorem C3_forward_shape_witness :
    validCfg cfgW ∧ (1 : ℕ) ≤ 1 ∧ ∃ m, mcdInit cfgW = some m ∧
      mcdForwardSh m ((cfgW.num_chan.zip cfgW.num_time).map fun p => Sh3.mk 1 p.1 p.2) =
        some ⟨1, 1⟩ := by
  have hv : validCfg cfgW := by
    unfold validCfg
    decide
  exact ⟨hv, le_refl 1, C3_forward_shape cfgW hv 1 (le_refl 1)⟩

end CogniFuse
